import Mathlib

/-!
# Solitude interpreter (`solitude.c`): shallow embedding and verified properties

C strings are modelled as `List Char`: the characters before the terminating NUL.
The two global tables `vars`/`funcs` (with `var_count`/`func_count`) are lists of entries,
the counters being the list lengths.  The standard streams are character lists carried in
the interpreter state.  Every function that can run into undefined behaviour of C
(a write past a fixed-size array, a read of an uninitialised array or past a terminator)
returns `Outcome.undefined` there.  The loop of `evaluate_expression`, which can spin for
ever, is run with fuel given by the caller; the loop of `replace_variables` is run with
the fuel `strlen(str) + 1`, which it never uses up (`replace_loop_ne_timeout`).

The `double` arithmetic is a parameter (`DoubleOps`): general theorems hold for every
interpretation of it, and concrete scenarios are evaluated on `exactOps`, which computes
with exact fractions (it agrees with IEEE-754 binary64 whenever every value involved is a
number that binary64 represents exactly; rounding, overflow and signed zeros are not modelled).
-/

namespace Solitude

/-! ## Constants of the source -/

def MAX_VAR_NAME : Nat := 64
def MAX_VAR_VALUE : Nat := 256
def MAX_VARS : Nat := 100
def MAX_FUNC_NAME : Nat := 64
def MAX_FUNC_BODY : Nat := 1024
def MAX_FUNCS : Nat := 10

/-! ## Results of running C code -/

/-- Result of running a piece of the C program: a value, undefined behaviour, or out of fuel. -/
inductive Outcome (α : Type) where
  | ok (a : α)
  | undefined
  | timeout
  deriving DecidableEq, Repr

/-- Sequencing of two computations: the first fault is the fault of the whole. -/
def Outcome.bind {α β : Type} (x : Outcome α) (f : α → Outcome β) : Outcome β :=
  match x with
  | .ok a => f a
  | .undefined => .undefined
  | .timeout => .timeout

/-! ## `<ctype.h>` in the C locale -/

def isspace (c : Char) : Bool :=
  c.toNat = 32 || (9 ≤ c.toNat && c.toNat ≤ 13)

def isdigit (c : Char) : Bool :=
  48 ≤ c.toNat && c.toNat ≤ 57

def isalpha (c : Char) : Bool :=
  (65 ≤ c.toNat && c.toNat ≤ 90) || (97 ≤ c.toNat && c.toNat ≤ 122)

def isalnum (c : Char) : Bool :=
  isalpha c || isdigit c

def isxdigit (c : Char) : Bool :=
  isdigit c || (65 ≤ c.toNat && c.toNat ≤ 70) || (97 ≤ c.toNat && c.toNat ≤ 102)

/-- Code of the letter folded to lower case (`tolower`). -/
def lower (c : Char) : Nat :=
  if 65 ≤ c.toNat ∧ c.toNat ≤ 90 then c.toNat + 32 else c.toNat

/-- Value of a decimal or hexadecimal digit character (0 for any other character). -/
def digit_value (c : Char) : Nat :=
  if isdigit c then c.toNat - 48
  else if 65 ≤ c.toNat ∧ c.toNat ≤ 70 then c.toNat - 55
  else if 97 ≤ c.toNat ∧ c.toNat ≤ 102 then c.toNat - 87
  else 0

/-- Does the text start with the given lower-case keyword, ignoring case? -/
def starts_with_ci : List Char → List Char → Bool
  | [], _ => true
  | _ :: _, [] => false
  | k :: ks, c :: cs => lower c = k.toNat && starts_with_ci ks cs

/-! ## The `double` interface -/

/-- The operations on `double` that the interpreter uses. -/
structure DoubleOps (F : Type) where
  /-- The constant `0.0`. -/
  zero : F
  add : F → F → F
  sub : F → F → F
  mul : F → F → F
  div : F → F → F
  /-- The test `x != 0`. -/
  ne_zero : F → Bool
  /-- The value `strtod` gives to a subject sequence (sign included). -/
  of_literal : List Char → F
  /-- The text `printf("%lf", x)` writes. -/
  fmt_lf : F → List Char

/-! ## `strtod` (ISO C 7.22.1.3): which characters it consumes -/

/-- Length of the longest start `digits [. digits]` with at least one digit (0 if none). -/
def scan_mantissa (isd : Char → Bool) (p : List Char) : Nat :=
  let a := (p.takeWhile isd).length
  match p.drop a with
  | '.' :: q =>
    let b := (q.takeWhile isd).length
    if a + b = 0 then 0 else a + 1 + b
  | _ => a

/-- Length of an exponent part `e [sign] digits` with marker `e1`/`e2` (0 if none). -/
def scan_exponent (e1 e2 : Char) (p : List Char) : Nat :=
  match p with
  | [] => 0
  | c :: q =>
    if c = e1 ∨ c = e2 then
      let s := match q with
        | '+' :: _ => 1
        | '-' :: _ => 1
        | _ => 0
      let d := ((q.drop s).takeWhile isdigit).length
      if d = 0 then 0 else 1 + s + d
    else 0

/-- Length of the optional `( n-char-sequence )` after `nan` (0 if none). -/
def scan_nan_chars (p : List Char) : Nat :=
  match p with
  | '(' :: q =>
    let n := (q.takeWhile (fun c => isalnum c || c = '_')).length
    match q.drop n with
    | ')' :: _ => n + 2
    | _ => 0
  | _ => 0

/-- Length of a hexadecimal floating constant `0x...` (0 if none). -/
def scan_hex (p : List Char) : Nat :=
  match p with
  | '0' :: x :: q =>
    if x = 'x' ∨ x = 'X' then
      let m := scan_mantissa isxdigit q
      if m = 0 then 0 else 2 + m + scan_exponent 'p' 'P' (q.drop m)
    else 0
  | _ => 0

/-- Length of an unsigned subject sequence: infinity, NaN, hexadecimal or decimal. -/
def scan_number (p : List Char) : Nat :=
  if starts_with_ci "infinity".toList p then 8
  else if starts_with_ci "inf".toList p then 3
  else if starts_with_ci "nan".toList p then 3 + scan_nan_chars (p.drop 3)
  else if scan_hex p ≠ 0 then scan_hex p
  else
    let m := scan_mantissa isdigit p
    if m = 0 then 0 else m + scan_exponent 'e' 'E' (p.drop m)

/-- Length of the sign of a subject sequence. -/
def scan_sign (p : List Char) : Nat :=
  match p with
  | '+' :: _ => 1
  | '-' :: _ => 1
  | _ => 0

/-- Length of the subject sequence of `strtod` at `p` (0: no conversion can be performed). -/
def strtod_len (p : List Char) : Nat :=
  let n := scan_number (p.drop (scan_sign p))
  if n = 0 then 0 else scan_sign p + n

/-- Library `strtod(nptr, &endptr)`: the value and the text `endptr` points to.
White space is skipped; without a subject sequence the value is zero and `endptr = nptr`. -/
def strtod {F : Type} (ops : DoubleOps F) (nptr : List Char) : F × List Char :=
  let q := nptr.dropWhile isspace
  let n := strtod_len q
  if n = 0 then (ops.zero, nptr) else (ops.of_literal (q.take n), q.drop n)

/-! ## `evaluate_expression` -/

/-- The chain `if (operator == '+') result += value; else if ...` of `evaluate_expression`. -/
def apply_operator {F : Type} (ops : DoubleOps F) (operator : Char) (result value : F) : F :=
  if operator = '+' then ops.add result value
  else if operator = '-' then ops.sub result value
  else if operator = '*' then ops.mul result value
  else if operator = '/' then ops.div result value
  else result

/-- The loop `while (*p) { ... }` of `evaluate_expression`, one unit of fuel per iteration.
After the white space is skipped `*p` may be the terminator: the final `else ++p` then
moves `p` past the end of the string and the loop test reads outside it. -/
def eval_loop {F : Type} (ops : DoubleOps F) :
    Nat → List Char → F → Char → Outcome F
  | 0, _, _, _ => .timeout
  | fuel + 1, p, result, operator =>
    match p with
    | [] => .ok result
    | _ :: _ =>
      match p.dropWhile isspace with
      | [] => .undefined
      | c :: q =>
        if isdigit c || c = '-' then
          eval_loop ops fuel (strtod ops (c :: q)).2
            (apply_operator ops operator result (strtod ops (c :: q)).1) operator
        else if c = '+' ∨ c = '-' ∨ c = '*' ∨ c = '/' then
          eval_loop ops fuel q result c
        else
          eval_loop ops fuel q result operator

/-- Source function `evaluate_expression(expr)`, run with the given fuel. -/
def evaluate_expression {F : Type} (ops : DoubleOps F) (fuel : Nat) (expr : List Char) :
    Outcome F :=
  eval_loop ops fuel expr ops.zero '+'

/-! ## An exact interpretation of the `double` interface -/

/-- Exact stand-in for a `double`: a fraction `num/den` in lowest terms, an infinity, or NaN. -/
inductive Dbl where
  | fin (num : Int) (den : Nat)
  | inf (neg : Bool)
  | nan
  deriving DecidableEq, Repr

/-- The fraction `n/d` in lowest terms. -/
def Dbl.frac (n : Int) (d : Nat) : Dbl :=
  .fin (n / (Nat.gcd n.natAbs d : Int)) (d / Nat.gcd n.natAbs d)

def Dbl.neg : Dbl → Dbl
  | .fin n d => .fin (-n) d
  | .inf s => .inf (!s)
  | .nan => .nan

def Dbl.add : Dbl → Dbl → Dbl
  | .fin a b, .fin c d => Dbl.frac (a * d + c * b) (b * d)
  | .fin _ _, .inf s => .inf s
  | .inf s, .fin _ _ => .inf s
  | .inf s, .inf t => if s = t then .inf s else .nan
  | _, _ => .nan

def Dbl.sub (x y : Dbl) : Dbl :=
  Dbl.add x (Dbl.neg y)

def Dbl.mul : Dbl → Dbl → Dbl
  | .fin a b, .fin c d => Dbl.frac (a * c) (b * d)
  | .fin a _, .inf s => if a = 0 then .nan else .inf (s != decide (a < 0))
  | .inf s, .fin c _ => if c = 0 then .nan else .inf (s != decide (c < 0))
  | .inf s, .inf t => .inf (s != t)
  | _, _ => .nan

def Dbl.div : Dbl → Dbl → Dbl
  | .fin a b, .fin c d =>
    if c = 0 then (if a = 0 then .nan else .inf (decide (a < 0)))
    else Dbl.frac (a * d * Int.sign c) (b * c.natAbs)
  | .fin _ _, .inf _ => .fin 0 1
  | .inf s, .fin c _ => .inf (s != decide (c < 0))
  | _, _ => .nan

def Dbl.ne_zero : Dbl → Bool
  | .fin n _ => n ≠ 0
  | _ => true

/-- Number written by the digits in the given base. -/
def parse_nat (base : Nat) (ds : List Char) : Nat :=
  ds.foldl (fun acc c => acc * base + digit_value c) 0

/-- Value of an optionally signed run of decimal digits (an exponent). -/
def parse_exponent (p : List Char) : Int :=
  match p with
  | '-' :: q => - (parse_nat 10 (q.takeWhile isdigit) : Int)
  | '+' :: q => (parse_nat 10 (q.takeWhile isdigit) : Int)
  | _ => (parse_nat 10 (p.takeWhile isdigit) : Int)

/-- The number `m * base ^ e` as an exact fraction. -/
def Dbl.scale (m : Nat) (base : Nat) (e : Int) : Dbl :=
  if 0 ≤ e then Dbl.frac ((m * base ^ e.toNat : Nat) : Int) 1
  else Dbl.frac (m : Int) (base ^ (-e).toNat)

/-- Value of `digits [. digits] [marker exponent]` with digits in base `base`: the exponent
counts powers of `ebase`, and each digit of the fraction is worth `fbits` such powers. -/
def Dbl.of_mantissa (isd : Char → Bool) (base ebase : Nat) (fbits : Nat) (p : List Char) : Dbl :=
  let ip := p.takeWhile isd
  let r := p.drop ip.length
  let fp := match r with
    | '.' :: q => q.takeWhile isd
    | _ => []
  let r2 := match r with
    | '.' :: q => q.drop fp.length
    | _ => r
  let e := match r2 with
    | _ :: q => parse_exponent q
    | [] => 0
  Dbl.scale (parse_nat base (ip ++ fp)) ebase (e - (fbits * fp.length : Nat))

/-- Value of an unsigned subject sequence. -/
def Dbl.of_unsigned (p : List Char) : Dbl :=
  if starts_with_ci "inf".toList p then .inf false
  else if starts_with_ci "nan".toList p then .nan
  else if scan_hex p ≠ 0 then Dbl.of_mantissa isxdigit 16 2 4 (p.drop 2)
  else Dbl.of_mantissa isdigit 10 10 1 p

/-- Value of a subject sequence of `strtod`. -/
def Dbl.of_literal (p : List Char) : Dbl :=
  match p with
  | '-' :: q => Dbl.neg (Dbl.of_unsigned q)
  | '+' :: q => Dbl.of_unsigned q
  | _ => Dbl.of_unsigned p

/-- The six digits after the decimal point. -/
def pad6 (n : Nat) : List Char :=
  List.replicate (6 - (Nat.toDigits 10 n).length) '0' ++ Nat.toDigits 10 n

/-- Text of `printf("%lf", x)`: six decimals, rounded to nearest (ties to even). -/
def Dbl.fmt_lf : Dbl → List Char
  | .fin n d =>
    let scaled := n.natAbs * 1000000
    let q := scaled / d
    let r := scaled % d
    let q1 := if d < 2 * r ∨ (2 * r = d ∧ q % 2 = 1) then q + 1 else q
    (if n < 0 then ['-'] else []) ++ Nat.toDigits 10 (q1 / 1000000) ++ '.' :: pad6 (q1 % 1000000)
  | .inf s => (if s then ['-'] else []) ++ "inf".toList
  | .nan => "nan".toList

/-- The exact interpretation of the `double` operations. -/
def exactOps : DoubleOps Dbl where
  zero := .fin 0 1
  add := Dbl.add
  sub := Dbl.sub
  mul := Dbl.mul
  div := Dbl.div
  ne_zero := Dbl.ne_zero
  of_literal := Dbl.of_literal
  fmt_lf := Dbl.fmt_lf

/-! ## The interpreter state -/

/-- Entry of the table `vars`. -/
structure Variable where
  name : List Char
  value : List Char
  deriving DecidableEq, Repr

/-- Entry of the table `funcs`. -/
structure Function where
  name : List Char
  body : List Char
  deriving DecidableEq, Repr

/-- The globals of the program and its standard streams: `vars` (its length is `var_count`),
`funcs` (its length is `func_count`), what was written to `stdout` and `stderr`, and the
characters of `stdin` not read yet. -/
structure Interp where
  vars : List Variable
  funcs : List Function
  out : List Char
  err : List Char
  inp : List Char
  deriving DecidableEq, Repr

/-- The state at program start: empty tables, nothing written. -/
def Interp.init (inp : List Char) : Interp :=
  ⟨[], [], [], [], inp⟩

/-- Library `printf` with an already formatted text. -/
def Interp.printf (st : Interp) (text : List Char) : Interp :=
  { st with out := st.out ++ text }

/-- Library `fprintf(stderr, ...)` with an already formatted text. -/
def Interp.eprintf (st : Interp) (text : List Char) : Interp :=
  { st with err := st.err ++ text }

/-! ## The variable table -/

/-- Source function `get_var(name)`: the value of the first entry with that name, or `NULL`. -/
def get_var (vars : List Variable) (name : List Char) : Option (List Char) :=
  match vars with
  | [] => none
  | v :: rest => if v.name = name then some v.value else get_var rest name

/-- The search loop of `set_var`: the table with the value of the first entry named `name`
overwritten, or `none` when the loop ends without a match. -/
def set_var_loop (vars : List Variable) (name value : List Char) : Option (List Variable) :=
  match vars with
  | [] => none
  | v :: rest =>
    if v.name = name then some ({ v with value := value } :: rest)
    else (set_var_loop rest name value).map (fun r => v :: r)

/-- Source function `set_var(name, value)`.  A `strncpy` whose source does not fit leaves the
array without terminator, so that every later use of the entry reads past the array:
the model stops there with `undefined`. -/
def set_var (st : Interp) (name value : List Char) : Outcome Interp :=
  match set_var_loop st.vars name value with
  | some vs =>
    if value.length < MAX_VAR_VALUE then .ok { st with vars := vs } else .undefined
  | none =>
    if st.vars.length < MAX_VARS then
      if name.length < MAX_VAR_NAME ∧ value.length < MAX_VAR_VALUE then
        .ok { st with vars := st.vars ++ [⟨name, value⟩] }
      else .undefined
    else .ok (st.printf "Error: Too many variables\n".toList)

/-- The loops of `delete_var`: the table without the first entry named `name` (the later
entries moved down by one), or `none` when there is no such entry. -/
def delete_var_loop (vars : List Variable) (name : List Char) : Option (List Variable) :=
  match vars with
  | [] => none
  | v :: rest =>
    if v.name = name then some rest
    else (delete_var_loop rest name).map (fun r => v :: r)

/-- Source function `delete_var(name)`. -/
def delete_var (st : Interp) (name : List Char) : Interp :=
  match delete_var_loop st.vars name with
  | some vs => { st with vars := vs }
  | none => st.printf ("Error: Undefined variable ".toList ++ name ++ "\n".toList)

/-! ## `replace_variables` -/

/-- How the scan of `replace_variables` ends: at the end of the text with the buffer built,
or at the first reference to an undefined variable. -/
inductive Replaced where
  | done (buffer : List Char)
  | missing (var_name : List Char)
  deriving DecidableEq, Repr

/-- The loop `while (*p) { ... }` of `replace_variables` over `char buffer[512]` and
`char var_name[64]`; `buffer` is what has been written so far.  A write past either array
is undefined.  The fuel counts iterations; `p.length + 1` of it is always enough. -/
def replace_loop (vars : List Variable) :
    Nat → List Char → List Char → Outcome Replaced
  | 0, _, _ => .timeout
  | fuel + 1, p, buffer =>
    match p with
    | [] => .ok (.done buffer)
    | c :: q =>
      if c = '$' ∧ (q.head?.map isalpha = some true) then
        if (q.takeWhile isalnum).length < MAX_VAR_NAME then
          match get_var vars (q.takeWhile isalnum) with
          | some var_value =>
            if buffer.length + var_value.length < MAX_VAR_VALUE * 2 then
              replace_loop vars fuel (q.dropWhile isalnum) (buffer ++ var_value)
            else .undefined
          | none => .ok (.missing (q.takeWhile isalnum))
        else .undefined
      else if buffer.length < MAX_VAR_VALUE * 2 then
        replace_loop vars fuel q (buffer ++ [c])
      else .undefined

/-- Source function `replace_variables(str)`, where `str` points to an array of `cap`
characters: the new text of `str` and the state after the possible error report.
On an undefined variable the function returns before anything is copied back. -/
def replace_variables (cap : Nat) (st : Interp) (str : List Char) :
    Outcome (List Char × Interp) :=
  match replace_loop st.vars (str.length + 1) str [] with
  | .ok (.done buffer) =>
    if buffer.length < MAX_VAR_VALUE * 2 ∧ buffer.length < cap then .ok (buffer, st)
    else .undefined
  | .ok (.missing var_name) =>
    .ok (str, st.printf ("Error: Undefined variable ".toList ++ var_name ++ "\n".toList))
  | .undefined => .undefined
  | .timeout => .timeout

/-! ## The function table -/

/-- The search loop of `define_function`, as in `set_var`. -/
def define_function_loop (funcs : List Function) (name body : List Char) :
    Option (List Function) :=
  match funcs with
  | [] => none
  | f :: rest =>
    if f.name = name then some ({ f with body := body } :: rest)
    else (define_function_loop rest name body).map (fun r => f :: r)

/-- Source function `define_function(name, body)`; over-long sources as in `set_var`. -/
def define_function (st : Interp) (name body : List Char) : Outcome Interp :=
  match define_function_loop st.funcs name body with
  | some fs =>
    if body.length < MAX_FUNC_BODY then .ok { st with funcs := fs } else .undefined
  | none =>
    if st.funcs.length < MAX_FUNCS then
      if name.length < MAX_FUNC_NAME ∧ body.length < MAX_FUNC_BODY then
        .ok { st with funcs := st.funcs ++ [⟨name, body⟩] }
      else .undefined
    else .ok (st.printf "Error: Too many functions\n".toList)

/-- The search loop of `execute_function`: the body of the first function named `name`. -/
def find_function (funcs : List Function) (name : List Char) : Option (List Char) :=
  match funcs with
  | [] => none
  | f :: rest => if f.name = name then some f.body else find_function rest name

/-- Source function `execute_function(name)`: the stored body is copied into
`char body[MAX_FUNC_BODY]`, run through `replace_variables` and printed. -/
def execute_function (st : Interp) (name : List Char) : Outcome Interp :=
  match find_function st.funcs name with
  | some stored =>
    if stored.length < MAX_FUNC_BODY then
      (replace_variables MAX_FUNC_BODY st stored).bind fun r =>
        .ok (r.2.printf (r.1 ++ "\n".toList))
    else .undefined
  | none => .ok (st.printf ("Error: Undefined function ".toList ++ name ++ "\n".toList))

/-! ## `process_escape_sequences` -/

/-- The backslash character. -/
def BACKSLASH : Char := Char.ofNat 92

/-- The character `'\033'` (ESC). -/
def ESC : Char := Char.ofNat 27

/-- The terminator of a C string. -/
def NUL : Char := Char.ofNat 0

/-- Library `strtol(s, NULL, 16)` for a text too short to overflow a `long`: white space,
an optional sign, an optional `0x` before a hexadecimal digit, then the digits. -/
def strtol16 (s : List Char) : Int :=
  let t := s.dropWhile isspace
  let u := t.drop (scan_sign t)
  let h := match u with
    | z :: x :: d :: r => if z = '0' ∧ (x = 'x' ∨ x = 'X') ∧ isxdigit d then d :: r else u
    | _ => u
  let v : Int := (parse_nat 16 (h.takeWhile isxdigit) : Nat)
  if t.head? = some '-' then -v else v

/-- The conversion `(char)n` of a `long` to a character: its lowest eight bits. -/
def char_of_long (n : Int) : Char :=
  Char.ofNat (n % 256).toNat

/-- Source function `process_escape_sequences(line)`: the characters written through `dst`
(before the final terminator; a written NUL ends the string earlier, see `c_str`).
A `\x` with fewer than two characters after it makes `src` step over the terminator. -/
def process_escape_sequences : List Char → Outcome (List Char)
  | [] => .ok []
  | c :: a :: b :: d :: r =>
    if c = BACKSLASH ∧ a = '0' ∧ b = '3' ∧ d = '3' then
      (process_escape_sequences r).bind fun w => .ok (ESC :: w)
    else if c = BACKSLASH ∧ a = 'x' then
      (process_escape_sequences r).bind fun w => .ok (char_of_long (strtol16 [b, d]) :: w)
    else
      (process_escape_sequences (a :: b :: d :: r)).bind fun w => .ok (c :: w)
  | c :: rest =>
    if c = BACKSLASH ∧ rest.head? = some 'x' then .undefined
    else (process_escape_sequences rest).bind fun w => .ok (c :: w)

/-- The C string held by an array with the given contents: what precedes the first NUL. -/
def c_str (bytes : List Char) : List Char :=
  bytes.takeWhile (fun c => c ≠ NUL)

/-! ## `sscanf` directives and `fgets` -/

/-- The directive `%s`: white space is skipped, then the run of other characters is read
(empty: the conversion fails and nothing is stored). -/
def scan_s (s : List Char) : List Char :=
  (s.dropWhile isspace).takeWhile (fun c => !isspace c)

/-- The input left after the directive `%s`. -/
def after_s (s : List Char) : List Char :=
  (s.dropWhile isspace).dropWhile (fun c => !isspace c)

/-- The directive `%[^c]`: the run of characters other than `c`. -/
def scan_until (c : Char) (s : List Char) : List Char :=
  s.takeWhile (fun x => x ≠ c)

/-- The call `sscanf(s, " -> %[^\n]", message)`: the text stored in `message` when the
call returns 1. -/
def scan_message (s : List Char) : Option (List Char) :=
  match s.dropWhile isspace with
  | a :: b :: r =>
    if a = '-' ∧ b = '>' ∧ scan_until '\n' (r.dropWhile isspace) ≠ [] then
      some (scan_until '\n' (r.dropWhile isspace))
    else none
  | _ => none

/-- Characters that `fgets` stores when at most `k` may be read: up to and with a newline. -/
def fgets_chars : Nat → List Char → List Char
  | 0, _ => []
  | _ + 1, [] => []
  | k + 1, c :: cs => if c = '\n' then [c] else c :: fgets_chars k cs

/-! ## `process_line` -/

/-- The `var ` branch of `process_line`, `rest` being `line + 4`. -/
def process_var {F : Type} (ops : DoubleOps F) (fuel : Nat) (st : Interp) (rest : List Char) :
    Outcome Interp :=
  let name := scan_until '=' rest
  if name = [] then .ok (st.eprintf "Error: Invalid variable declaration format.\n".toList)
  else if ¬ name.length < MAX_VAR_NAME then .undefined
  else
    match rest.drop name.length with
    | [] => .ok (st.eprintf "Error: Invalid variable declaration format.\n".toList)
    | _ :: r =>
      if scan_s r = [] then
        .ok (st.eprintf "Error: Invalid variable declaration format.\n".toList)
      else if ¬ (scan_s r).length < MAX_VAR_VALUE then .undefined
      else
        (replace_variables MAX_VAR_VALUE st (scan_s r)).bind fun rv =>
          if '+' ∈ rv.1 ∨ '-' ∈ rv.1 ∨ '*' ∈ rv.1 ∨ '/' ∈ rv.1 then
            (evaluate_expression ops fuel rv.1).bind fun result =>
              set_var rv.2 name ((ops.fmt_lf result).take (MAX_VAR_VALUE - 1))
          else set_var rv.2 name rv.1

/-- The `if ` branch of `process_line`, `rest` being `line + 3`.  Without a token `condition`
stays uninitialised. -/
def process_if {F : Type} (ops : DoubleOps F) (fuel : Nat) (st : Interp) (rest : List Char) :
    Outcome Interp :=
  if scan_s rest = [] ∨ ¬ (scan_s rest).length < MAX_VAR_VALUE then .undefined
  else
    (evaluate_expression ops fuel (scan_s rest)).bind fun result =>
      .ok (if ops.ne_zero result then st.printf "Condition met, execute next line\n".toList
        else st)

/-- The `func ` branch of `process_line`, `rest` being `line + 5`.  The call
`sscanf(rest, "%s %[^\n]", name, body)` leaves `name` or `body` uninitialised when the
token or the text after it is missing. -/
def process_func (st : Interp) (rest : List Char) : Outcome Interp :=
  let name := scan_s rest
  let body := scan_until '\n' ((after_s rest).dropWhile isspace)
  if name = [] ∨ ¬ name.length < MAX_FUNC_NAME then .undefined
  else if body = [] ∨ ¬ body.length < MAX_FUNC_BODY then .undefined
  else define_function st name body

/-- The `call ` branch of `process_line`, `rest` being `line + 5`. -/
def process_call (st : Interp) (rest : List Char) : Outcome Interp :=
  if scan_s rest = [] ∨ ¬ (scan_s rest).length < MAX_FUNC_NAME then .undefined
  else execute_function st (scan_s rest)

/-- The `input ` branch of `process_line`.  The second `sscanf` starts at
`line + 6 + strlen(name) + 1`.  On a line that ends with the name this is one character
past the terminator of `line`, and what `sscanf` reads there is not part of the string:
`after` is the C string that the caller's array holds right behind the terminator
(`none`: those characters are not initialised or lie outside the array).  The array
`message` has `MAX_VAR_NAME + 32` characters and `value` has `MAX_VAR_VALUE`. -/
def process_input (st : Interp) (line : List Char) (after : Option (List Char)) :
    Outcome Interp :=
  let name := scan_s (line.drop 6)
  if name = [] ∨ ¬ name.length < MAX_VAR_NAME then .undefined
  else
    match (if line.length < 6 + name.length + 1 then after
        else some (line.drop (6 + name.length + 1))) with
    | none => .undefined
    | some s =>
      if ¬ ((scan_message s).getD []).length < MAX_VAR_NAME + 32 then .undefined
      else
        let st1 := match scan_message s with
          | some m => st.printf m
          | none => st.printf ("Enter value for ".toList ++ name ++ ": ".toList)
        let got := fgets_chars (MAX_VAR_VALUE - 1) st1.inp
        if got = [] then .ok (st1.eprintf "Error reading input\n".toList)
        else
          set_var { st1 with inp := st1.inp.drop got.length } name (scan_until '\n' got)

/-- The fallback of `process_line`: the line is copied into `char processed_line[256]`,
interpolated, decoded and printed. -/
def process_display (st : Interp) (line : List Char) : Outcome Interp :=
  if ¬ line.length < MAX_VAR_VALUE then .undefined
  else
    (replace_variables MAX_VAR_VALUE st line).bind fun rv =>
      (process_escape_sequences rv.1).bind fun w =>
        .ok (rv.2.printf (c_str w ++ "\n".toList))

/-- Source function `process_line(line)`, `line` being a string inside an array of the
caller that holds the C string `after` right behind the terminator of `line` (`none`: the
characters there are not initialised or lie outside the array).  Only the `input ` branch
looks at them. -/
def process_line_in {F : Type} (ops : DoubleOps F) (fuel : Nat) (st : Interp)
    (line : List Char) (after : Option (List Char)) : Outcome Interp :=
  if line.head? = some '.' then .ok st
  else if line = [] then .ok st
  else if line.take 4 = "var ".toList then process_var ops fuel st (line.drop 4)
  else if line.head? = some '-' then .ok (delete_var st (line.drop 1))
  else if line.take 3 = "if ".toList then process_if ops fuel st (line.drop 3)
  else if line.take 5 = "func ".toList then process_func st (line.drop 5)
  else if line.take 5 = "call ".toList then process_call st (line.drop 5)
  else if line.take 6 = "input ".toList then process_input st line after
  else process_display st line

/-- Source function `process_line(line)` as `process_file` calls it on a line of the file
that ended with a newline: `fgets` stored the line, the newline and a terminator, and
`line[strcspn(line, "\n")] = '\0'` put a second terminator where the newline was, so that
the array holds the empty string right behind the terminator of `line`. -/
def process_line {F : Type} (ops : DoubleOps F) (fuel : Nat) (st : Interp) (line : List Char) :
    Outcome Interp :=
  process_line_in ops fuel st line (some [])

/-- The loop of `process_file` over the lines that `fgets` delivers, newline removed. -/
def process_lines {F : Type} (ops : DoubleOps F) (fuel : Nat) (st : Interp) :
    List (List Char) → Outcome Interp
  | [] => .ok st
  | line :: rest => (process_line ops fuel st line).bind fun st1 => process_lines ops fuel st1 rest

/-- Processing a sequence of lines one after the other, each line given with what its
array holds behind its terminator (see `process_line_in`): every way in which
`process_line` can be called in succession. -/
def process_lines_in {F : Type} (ops : DoubleOps F) (fuel : Nat) (st : Interp) :
    List (List Char × Option (List Char)) → Outcome Interp
  | [] => .ok st
  | line :: rest =>
    (process_line_in ops fuel st line.1 line.2).bind fun st1 =>
      process_lines_in ops fuel st1 rest

/-! ## Reference descriptions used by the theorems -/

/-- Result of the reference interpolation: the text produced, up to the end of the input or
up to the leftmost reference to an absent variable, and the name of that reference. -/
structure Expansion where
  text : List Char
  missing : Option (List Char)
  deriving DecidableEq, Repr

/-- Reference interpolation, scanning left to right: a `$` immediately followed by a letter
starts a reference whose name is the maximal run of letters and digits after the `$`; it is
replaced by the stored value, which is not scanned again; any other character is copied.
The scan stops at the first reference to an absent variable.  The fuel bounds the number
of steps (the length of the text is enough). -/
def expand_from (vars : List Variable) : Nat → List Char → Expansion
  | 0, _ => ⟨[], none⟩
  | _ + 1, [] => ⟨[], none⟩
  | n + 1, c :: q =>
    if c = '$' ∧ (q.head?.map isalpha = some true) then
      match get_var vars (q.takeWhile isalnum) with
      | some v =>
        ⟨v ++ (expand_from vars n (q.dropWhile isalnum)).text,
          (expand_from vars n (q.dropWhile isalnum)).missing⟩
      | none => ⟨[], some (q.takeWhile isalnum)⟩
    else ⟨c :: (expand_from vars n q).text, (expand_from vars n q).missing⟩

/-- Reference interpolation of a whole text. -/
def expand (vars : List Variable) (text : List Char) : Expansion :=
  expand_from vars text.length text

/-- Reference escape decoder: `\033` becomes ESC, `\x` followed by two hexadecimal digits
becomes the byte they write, every other character is copied. -/
def decode_escapes : List Char → List Char
  | [] => []
  | c :: a :: b :: d :: r =>
    if c = BACKSLASH ∧ a = '0' ∧ b = '3' ∧ d = '3' then ESC :: decode_escapes r
    else if c = BACKSLASH ∧ a = 'x' ∧ isxdigit b = true ∧ isxdigit d = true then
      Char.ofNat (16 * digit_value b + digit_value d) :: decode_escapes r
    else c :: decode_escapes (a :: b :: d :: r)
  | c :: rest => c :: decode_escapes rest

/-- The text starts with the four characters backslash, `0`, `3`, `3`. -/
def starts_esc033 : List Char → Bool
  | c :: a :: b :: d :: _ => c = BACKSLASH ∧ a = '0' ∧ b = '3' ∧ d = '3'
  | _ => false

/-- The text starts with a backslash and an `x`. -/
def starts_backslash_x : List Char → Bool
  | c :: a :: _ => c = BACKSLASH ∧ a = 'x'
  | _ => false

/-- The text starts with a backslash, an `x` and two hexadecimal digits. -/
def starts_hex_escape : List Char → Bool
  | c :: a :: b :: d :: _ => c = BACKSLASH ∧ a = 'x' ∧ isxdigit b ∧ isxdigit d
  | _ => false

/-- Some position of the text starts with the given shape. -/
def occurs (shape : List Char → Bool) (text : List Char) : Bool :=
  text.tails.any shape

/-- The text starts with a reference: a `$` immediately followed by a letter. -/
def starts_reference : List Char → Bool
  | c :: d :: _ => c = '$' ∧ isalpha d
  | _ => false

/-- The value that the `var ` branch hands to `set_var` for an interpolated text: the text
itself or, when it holds one of `+ - * /`, the first 255 characters of its value printed
with `%lf`. -/
def assigned_value {F : Type} (ops : DoubleOps F) (fuel : Nat) (text : List Char) :
    Outcome (List Char) :=
  if '+' ∈ text ∨ '-' ∈ text ∨ '*' ∈ text ∨ '/' ∈ text then
    (evaluate_expression ops fuel text).bind fun result =>
      .ok ((ops.fmt_lf result).take (MAX_VAR_VALUE - 1))
  else .ok text

/-- Both tables of the second state are those of the first. -/
def same_tables (st st1 : Interp) : Prop :=
  st1.vars = st.vars ∧ st1.funcs = st.funcs

/-- The tables are well formed: names are unique, the counters are within the array
bounds and every entry fits its arrays. -/
def Interp.wf (st : Interp) : Prop :=
  (st.vars.map Variable.name).Nodup ∧ (st.funcs.map Function.name).Nodup ∧
  st.vars.length ≤ MAX_VARS ∧ st.funcs.length ≤ MAX_FUNCS ∧
  (∀ v ∈ st.vars, v.name.length < MAX_VAR_NAME ∧ v.value.length < MAX_VAR_VALUE) ∧
  (∀ f ∈ st.funcs, f.name.length < MAX_FUNC_NAME ∧ f.body.length < MAX_FUNC_BODY)

/-! ## Theorems -/

/-- C1 (code defect).  `evaluate_expression` does not fold `"10/2-1"` from left to right:
the `-` is read by `strtod` as the sign of the literal `1` and the pending operator stays
`/`, so that the result is `((0 + 10) / 2) / (-1)`, which is `-5` and not `4`, for every
interpretation of the arithmetic; `"2+3*4"` does evaluate to `20`. -/
theorem C1_minus_read_as_sign_of_literal :
    (∀ (F : Type) (ops : DoubleOps F) (fuel : Nat),
      evaluate_expression ops (fuel + 5) "10/2-1".toList
        = .ok (ops.div (ops.div (ops.add ops.zero (ops.of_literal "10".toList))
            (ops.of_literal "2".toList)) (ops.of_literal "-1".toList))) ∧
    (∀ fuel : Nat,
      evaluate_expression exactOps (fuel + 5) "10/2-1".toList = .ok (.fin (-5) 1)) ∧
    (∀ fuel : Nat,
      evaluate_expression exactOps (fuel + 6) "2+3*4".toList = .ok (.fin 20 1)) :=
  ⟨fun _ _ _ => rfl, fun _ => rfl, fun _ => rfl⟩

/-- C2.  From empty tables the script `var x=10`, `var y=$x*2`, `Result: $y` writes exactly
the line `Result: 20.000000` to the output (and nothing to the error stream), for every
interpretation of the arithmetic in which `(0 + 10) * 2` prints as `20.000000`. -/
theorem C2_script_prints_result {F : Type} (ops : DoubleOps F) (fuel : Nat) (inp : List Char)
    (h : ops.fmt_lf (ops.mul (ops.add ops.zero (ops.of_literal "10".toList))
      (ops.of_literal "2".toList)) = "20.000000".toList) :
    process_lines ops (fuel + 4) (Interp.init inp)
        ["var x=10".toList, "var y=$x*2".toList, "Result: $y".toList]
      = .ok ⟨[⟨"x".toList, "10".toList⟩, ⟨"y".toList, "20.000000".toList⟩], [],
          "Result: 20.000000\n".toList, [], inp⟩ := by
  have h1 : process_line ops (fuel + 4) (Interp.init inp) "var x=10".toList
      = .ok ⟨[⟨"x".toList, "10".toList⟩], [], [], [], inp⟩ := rfl
  have h2 : process_line ops (fuel + 4) ⟨[⟨"x".toList, "10".toList⟩], [], [], [], inp⟩
      "var y=$x*2".toList
      = set_var ⟨[⟨"x".toList, "10".toList⟩], [], [], [], inp⟩ "y".toList
          ((ops.fmt_lf (ops.mul (ops.add ops.zero (ops.of_literal "10".toList))
            (ops.of_literal "2".toList))).take (MAX_VAR_VALUE - 1)) := rfl
  rw [h] at h2
  have h3 : process_line ops (fuel + 4)
      ⟨[⟨"x".toList, "10".toList⟩, ⟨"y".toList, "20.000000".toList⟩], [], [], [], inp⟩
      "Result: $y".toList
      = .ok ⟨[⟨"x".toList, "10".toList⟩, ⟨"y".toList, "20.000000".toList⟩], [],
          "Result: 20.000000\n".toList, [], inp⟩ := rfl
  have h2b : process_line ops (fuel + 4) ⟨[⟨"x".toList, "10".toList⟩], [], [], [], inp⟩
      "var y=$x*2".toList
      = .ok ⟨[⟨"x".toList, "10".toList⟩, ⟨"y".toList, "20.000000".toList⟩], [], [], [], inp⟩ :=
    h2
  simp only [process_lines, h1, h2b, h3, Outcome.bind]

/-- C2 on the exact arithmetic. -/
theorem C2_script_prints_result_witness :
    process_lines exactOps (0 + 4) (Interp.init [])
        ["var x=10".toList, "var y=$x*2".toList, "Result: $y".toList]
      = .ok ⟨[⟨"x".toList, "10".toList⟩, ⟨"y".toList, "20.000000".toList⟩], [],
          "Result: 20.000000\n".toList, [], []⟩ :=
  C2_script_prints_result exactOps 0 [] (by decide)
theorem get_var_eq_none_iff (vars : List Variable) (name : List Char) :
    get_var vars name = none ↔ ∀ v ∈ vars, v.name ≠ name := by
  induction vars with
  | nil => simp [get_var]
  | cons v rest ih =>
    by_cases h : v.name = name
    · simp [get_var, h]
    · simp [get_var, h, ih]

theorem set_var_loop_eq_none_iff (vars : List Variable) (name value : List Char) :
    set_var_loop vars name value = none ↔ get_var vars name = none := by
  induction vars with
  | nil => simp [set_var_loop, get_var]
  | cons v rest ih =>
    by_cases h : v.name = name
    · simp [set_var_loop, get_var, h]
    · simp [set_var_loop, get_var, h, ih]

theorem get_var_of_set_var_loop (vars : List Variable) (name value : List Char) :
    ∀ vs, set_var_loop vars name value = some vs → get_var vs name = some value := by
  induction vars with
  | nil => simp [set_var_loop]
  | cons v rest ih =>
    intro vs hvs
    by_cases h : v.name = name
    · simp [set_var_loop, h] at hvs
      subst hvs
      simp [get_var, h]
    · simp [set_var_loop, h] at hvs
      obtain ⟨r, hr, rfl⟩ := hvs
      simp [get_var, h, ih r hr]

theorem get_var_append_new (vars : List Variable) (name value : List Char)
    (h : get_var vars name = none) : get_var (vars ++ [⟨name, value⟩]) name = some value := by
  induction vars with
  | nil => simp [get_var]
  | cons v rest ih =>
    by_cases hv : v.name = name
    · simp [get_var, hv] at h
    · simp only [get_var, hv, if_false] at h
      simp [get_var, hv, ih h]

/-- C10.  When the name and the value fit their arrays and the name is present or the table
holds fewer than `MAX_VARS` entries, `get_var(name)` after `set_var(name, value)` is exactly
`value`; and `get_var` answers absent for every name equal to no stored name. -/
theorem C10_get_after_set_and_exact_match (st : Interp) (name value : List Char)
    (hn : name.length < MAX_VAR_NAME) (hv : value.length < MAX_VAR_VALUE)
    (hcap : (∃ v ∈ st.vars, v.name = name) ∨ st.vars.length < MAX_VARS) :
    (∃ st1, set_var st name value = .ok st1 ∧ get_var st1.vars name = some value) ∧
    (∀ (vars : List Variable) (other : List Char),
      (∀ v ∈ vars, v.name ≠ other) → get_var vars other = none) := by
  refine ⟨?_, fun vars other h => (get_var_eq_none_iff vars other).2 h⟩
  cases hloop : set_var_loop st.vars name value with
  | some vs =>
    refine ⟨{ st with vars := vs }, ?_, get_var_of_set_var_loop _ _ _ vs hloop⟩
    simp [set_var, hloop, hv]
  | none =>
    have hnone : get_var st.vars name = none := (set_var_loop_eq_none_iff _ _ _).1 hloop
    have hlen : st.vars.length < MAX_VARS := by
      rcases hcap with ⟨v, hmem, hname⟩ | hlen
      · exact absurd hname ((get_var_eq_none_iff _ _).1 hnone v hmem)
      · exact hlen
    refine ⟨{ st with vars := st.vars ++ [⟨name, value⟩] }, ?_, get_var_append_new _ _ _ hnone⟩
    simp [set_var, hloop, hlen, hn, hv]

/-- C10 at a table holding `ab`: setting `a` appends it, and `a`, `abc` are not found by
a lookup in the table that only holds `ab`. -/
theorem C10_get_after_set_and_exact_match_witness :
    (∃ st1, set_var ⟨[⟨"ab".toList, "1".toList⟩], [], [], [], []⟩ "a".toList "7".toList = .ok st1 ∧
      get_var st1.vars "a".toList = some "7".toList) ∧
    (∀ (vars : List Variable) (other : List Char),
      (∀ v ∈ vars, v.name ≠ other) → get_var vars other = none) :=
  C10_get_after_set_and_exact_match ⟨[⟨"ab".toList, "1".toList⟩], [], [], [], []⟩
    "a".toList "7".toList (by decide) (by decide) (Or.inr (by decide))

theorem length_dropWhile_le_self (f : Char → Bool) (l : List Char) :
    (l.dropWhile f).length ≤ l.length := by
  induction l with
  | nil => simp
  | cons a t ih =>
    by_cases h : f a = true
    · simp only [List.dropWhile_cons_of_pos h, List.length_cons]; omega
    · simp [List.dropWhile_cons_of_neg h]

theorem mem_of_get_var_eq_some (vars : List Variable) (name value : List Char)
    (h : get_var vars name = some value) : ∃ v ∈ vars, v.name = name ∧ v.value = value := by
  induction vars with
  | nil => simp [get_var] at h
  | cons v rest ih =>
    by_cases hv : v.name = name
    · simp only [get_var, hv, if_true, Option.some.injEq] at h
      exact ⟨v, by simp, hv, h⟩
    · simp only [get_var, hv, if_false] at h
      obtain ⟨w, hw, hn, hval⟩ := ih h
      exact ⟨w, by simp [hw], hn, hval⟩

/-- The loop of `replace_variables` computes the reference interpolation as long as the
names and the text produced fit the two local arrays. -/
theorem replace_loop_eq_expand (vars : List Variable)
    (hwf : ∀ v ∈ vars, v.name.length < MAX_VAR_NAME) :
    ∀ (n : Nat) (p : List Char), p.length ≤ n → ∀ (fuel : Nat) (buffer : List Char),
      p.length < fuel →
      buffer.length + (expand_from vars n p).text.length < MAX_VAR_VALUE * 2 →
      (∀ x, (expand_from vars n p).missing = some x → x.length < MAX_VAR_NAME) →
      replace_loop vars fuel p buffer
        = .ok (match (expand_from vars n p).missing with
          | none => .done (buffer ++ (expand_from vars n p).text)
          | some x => .missing x) := by
  intro n
  induction n with
  | zero =>
    intro p hp fuel buffer hfuel _ _
    have hnil : p = [] := List.length_eq_zero.mp (Nat.le_zero.mp hp)
    subst hnil
    obtain ⟨f, rfl⟩ : ∃ f, fuel = f + 1 := ⟨fuel - 1, by simp at hfuel; omega⟩
    simp [replace_loop, expand_from]
  | succ n ih =>
    intro p hp fuel buffer hfuel hfit hname
    obtain ⟨f, rfl⟩ : ∃ f, fuel = f + 1 := ⟨fuel - 1, by omega⟩
    cases p with
    | nil => simp [replace_loop, expand_from]
    | cons c q =>
      simp only [List.length_cons] at hp hfuel
      by_cases hc : c = '$' ∧ (q.head?.map isalpha = some true)
      · cases hg : get_var vars (q.takeWhile isalnum) with
        | none =>
          have hx := hname (q.takeWhile isalnum) (by simp only [expand_from, if_pos hc, hg])
          simp only [replace_loop, expand_from, if_pos hc, hg, hx, if_true]
        | some v =>
          obtain ⟨w, hw, hwn, _⟩ := mem_of_get_var_eq_some _ _ _ hg
          have hx : (q.takeWhile isalnum).length < MAX_VAR_NAME := hwn ▸ hwf w hw
          have hdl := length_dropWhile_le_self isalnum q
          simp only [expand_from, if_pos hc, hg, List.length_append] at hfit hname
          have hb : buffer.length + v.length < MAX_VAR_VALUE * 2 := by omega
          have := ih (q.dropWhile isalnum) (by omega) f (buffer ++ v) (by omega)
            (by simp only [List.length_append]; omega) hname
          simp only [replace_loop, expand_from, if_pos hc, hg, hx, hb, if_true, this,
            List.append_assoc]
      · simp only [expand_from, if_neg hc, List.length_cons] at hfit hname
        have hb : buffer.length < MAX_VAR_VALUE * 2 := by omega
        have := ih q (by omega) f (buffer ++ [c]) (by omega)
          (by simp only [List.length_append, List.length_singleton]; omega) hname
        simp only [replace_loop, expand_from, if_neg hc, hb, if_true, this,
          List.append_assoc, List.singleton_append]

/-- With every referenced name defined and enough room, `replace_variables` yields the
reference interpolation. -/
theorem replace_variables_of_defined (cap : Nat) (st : Interp) (str : List Char)
    (hwf : ∀ v ∈ st.vars, v.name.length < MAX_VAR_NAME)
    (hdef : (expand st.vars str).missing = none)
    (hfit : (expand st.vars str).text.length < MAX_VAR_VALUE * 2 ∧
      (expand st.vars str).text.length < cap) :
    replace_variables cap st str = .ok ((expand st.vars str).text, st) := by
  have h := replace_loop_eq_expand st.vars hwf str.length str (Nat.le_refl _)
    (str.length + 1) [] (Nat.lt_succ_self _)
    (by simpa [expand] using hfit.1)
    (by intro x hx; simp [expand] at hdef; simp [hdef] at hx)
  simp only [expand] at hdef hfit
  simp only [replace_variables, h, hdef, expand, List.nil_append, hfit.1, hfit.2, and_self,
    if_true]

/-- At the leftmost reference to an absent variable `replace_variables` prints the report
and returns the text it was given. -/
theorem replace_variables_of_missing (cap : Nat) (st : Interp) (str x : List Char)
    (hwf : ∀ v ∈ st.vars, v.name.length < MAX_VAR_NAME)
    (hmiss : (expand st.vars str).missing = some x)
    (hx : x.length < MAX_VAR_NAME)
    (hfit : (expand st.vars str).text.length < MAX_VAR_VALUE * 2) :
    replace_variables cap st str
      = .ok (str, st.printf ("Error: Undefined variable ".toList ++ x ++ "\n".toList)) := by
  have h := replace_loop_eq_expand st.vars hwf str.length str (Nat.le_refl _)
    (str.length + 1) [] (Nat.lt_succ_self _)
    (by simpa [expand] using hfit)
    (by intro y hy; simp only [expand] at hmiss; rw [hmiss] at hy; cases hy; exact hx)
  simp only [expand] at hmiss
  simp only [replace_variables, h, hmiss]

/-- C3.  When every referenced name is defined, the stored names fit `var_name` and the
text produced fits the working buffer and the caller's array, `replace_variables` rewrites
the text to its reference interpolation and reports nothing. -/
theorem C3_replace_variables_is_reference_interpolation (cap : Nat) (st : Interp)
    (str : List Char)
    (hwf : ∀ v ∈ st.vars, v.name.length < MAX_VAR_NAME)
    (hdef : (expand st.vars str).missing = none)
    (hfit : (expand st.vars str).text.length < MAX_VAR_VALUE * 2 ∧
      (expand st.vars str).text.length < cap) :
    replace_variables cap st str = .ok ((expand st.vars str).text, st) :=
  replace_variables_of_defined cap st str hwf hdef hfit

/-- C3 at `a = "7"`: the text `$a+$a` becomes `7+7`. -/
theorem C3_replace_variables_is_reference_interpolation_witness :
    replace_variables 256 ⟨[⟨"a".toList, "7".toList⟩], [], [], [], []⟩ "$a+$a".toList
      = .ok ("7+7".toList, ⟨[⟨"a".toList, "7".toList⟩], [], [], [], []⟩) :=
  C3_replace_variables_is_reference_interpolation 256
    ⟨[⟨"a".toList, "7".toList⟩], [], [], [], []⟩ "$a+$a".toList
    (by decide) (by decide) (by decide)

/-- C6.  When the leftmost reference to an absent variable is `x` (the text produced before
it fitting the working buffer, the names fitting `var_name`), `replace_variables` reports
`Undefined variable x` and has no other effect: the caller's text is returned as it was
and both tables are unchanged. -/
theorem C6_undefined_reference_reported_text_kept (cap : Nat) (st : Interp)
    (str x : List Char)
    (hwf : ∀ v ∈ st.vars, v.name.length < MAX_VAR_NAME)
    (hmiss : (expand st.vars str).missing = some x)
    (hx : x.length < MAX_VAR_NAME)
    (hfit : (expand st.vars str).text.length < MAX_VAR_VALUE * 2) :
    ∃ st1, replace_variables cap st str = .ok (str, st1) ∧
      st1.out = st.out ++ "Error: Undefined variable ".toList ++ x ++ "\n".toList ∧
      st1.vars = st.vars ∧ st1.funcs = st.funcs ∧ st1.err = st.err ∧ st1.inp = st.inp :=
  ⟨st.printf ("Error: Undefined variable ".toList ++ x ++ "\n".toList),
    replace_variables_of_missing cap st str x hwf hmiss hx hfit,
    by simp [Interp.printf], rfl, rfl, rfl, rfl⟩

/-- C6 at the empty table: in `a$x b$y` the leftmost absent reference is `x`. -/
theorem C6_undefined_reference_reported_text_kept_witness :
    ∃ st1, replace_variables 256 (Interp.init []) "a$x b$y".toList
        = .ok ("a$x b$y".toList, st1) ∧
      st1.out = (Interp.init []).out ++ "Error: Undefined variable ".toList ++ "x".toList
        ++ "\n".toList ∧
      st1.vars = (Interp.init []).vars ∧ st1.funcs = (Interp.init []).funcs ∧
      st1.err = (Interp.init []).err ∧ st1.inp = (Interp.init []).inp :=
  C6_undefined_reference_reported_text_kept 256 (Interp.init []) "a$x b$y".toList "x".toList
    (by decide) (by decide) (by decide) (by decide)

theorem takeWhile_append_of_all (f : Char → Bool) (a b : List Char)
    (ha : ∀ x ∈ a, f x = true) : (a ++ b).takeWhile f = a ++ b.takeWhile f := by
  induction a with
  | nil => simp
  | cons x t ih =>
    have hx : f x = true := ha x (by simp)
    simp only [List.cons_append, List.takeWhile_cons_of_pos hx]
    rw [ih (fun y hy => ha y (by simp [hy]))]

theorem dropWhile_append_of_all (f : Char → Bool) (a b : List Char)
    (ha : ∀ x ∈ a, f x = true) : (a ++ b).dropWhile f = b.dropWhile f := by
  induction a with
  | nil => simp
  | cons x t ih =>
    have hx : f x = true := ha x (by simp)
    simp only [List.cons_append, List.dropWhile_cons_of_pos hx]
    exact ih (fun y hy => ha y (by simp [hy]))

theorem takeWhile_eq_self_of_all (f : Char → Bool) (a : List Char)
    (ha : ∀ x ∈ a, f x = true) : a.takeWhile f = a := by
  have := takeWhile_append_of_all f a [] ha
  simpa using this

theorem dropWhile_eq_self_of_head (f : Char → Bool) (a : List Char)
    (ha : ∀ x, a.head? = some x → f x = false) : a.dropWhile f = a := by
  cases a with
  | nil => rfl
  | cons x t =>
    have hx : ¬ f x = true := by simp [ha x rfl]
    exact List.dropWhile_cons_of_neg hx

/-- The directive `%[^c]` reads exactly `a` from `a ++ c :: b` when `c` is not in `a`. -/
theorem scan_until_append (c : Char) (a b : List Char) (ha : c ∉ a) :
    scan_until c (a ++ c :: b) = a := by
  unfold scan_until
  rw [takeWhile_append_of_all _ a _ (by
    intro x hx
    have : x ≠ c := fun h => ha (h ▸ hx)
    simp [this])]
  simp

/-- The directive `%s` reads a token without white space as it is. -/
theorem scan_s_token (t : List Char) (ht : ∀ c ∈ t, isspace c = false) : scan_s t = t := by
  unfold scan_s
  rw [dropWhile_eq_self_of_head isspace t (fun x hx => ht x (List.mem_of_mem_head? hx))]
  exact takeWhile_eq_self_of_all _ t (by intro x hx; simp [ht x hx])

/-- C4 fails as stated: at the empty table the line `var y=$x` reports the undefined `x`
and then stores the text `$x` under `y`, so the table is not what it was. -/
theorem C4_counterexample_store_changed_after_report :
    ∃ st1, process_line exactOps 0 (Interp.init []) "var y=$x".toList = .ok st1 ∧
      st1.out = "Error: Undefined variable x\n".toList ∧
      st1.vars = [⟨"y".toList, "$x".toList⟩] ∧
      st1.vars ≠ (Interp.init []).vars :=
  ⟨⟨[⟨"y".toList, "$x".toList⟩], [], "Error: Undefined variable x\n".toList, [], []⟩,
    by decide, by decide, by decide, by decide⟩

/-- C4 as amended.  For a line `var N=V` whose value `V` has `x` as leftmost reference to an
absent variable, `process_line` reports `Undefined variable x` and then goes on with `V`
as written: `set_var` is called for `N` with `V` itself or, when `V` contains one of
`+ - * /`, with the formatted result of evaluating `V`. -/
theorem C4_undefined_reference_then_raw_value_stored {F : Type} (ops : DoubleOps F)
    (fuel : Nat) (st : Interp) (N V x : List Char)
    (hN : N ≠ []) (hNeq : '=' ∉ N) (hNlen : N.length < MAX_VAR_NAME)
    (hV : V ≠ []) (hVws : ∀ c ∈ V, isspace c = false) (hVlen : V.length < MAX_VAR_VALUE)
    (hwf : ∀ v ∈ st.vars, v.name.length < MAX_VAR_NAME)
    (hmiss : (expand st.vars V).missing = some x)
    (hx : x.length < MAX_VAR_NAME)
    (hfit : (expand st.vars V).text.length < MAX_VAR_VALUE * 2) :
    process_line ops fuel st ("var ".toList ++ N ++ '=' :: V)
      = if '+' ∈ V ∨ '-' ∈ V ∨ '*' ∈ V ∨ '/' ∈ V then
          (evaluate_expression ops fuel V).bind fun result =>
            set_var (st.printf ("Error: Undefined variable ".toList ++ x ++ "\n".toList)) N
              ((ops.fmt_lf result).take (MAX_VAR_VALUE - 1))
        else
          set_var (st.printf ("Error: Undefined variable ".toList ++ x ++ "\n".toList)) N V := by
  have hrv := replace_variables_of_missing MAX_VAR_VALUE st V x hwf hmiss hx hfit
  have hline : "var ".toList ++ N ++ '=' :: V = 'v' :: 'a' :: 'r' :: ' ' :: (N ++ '=' :: V) := rfl
  have hname : scan_until '=' (N ++ '=' :: V) = N := scan_until_append '=' N V hNeq
  have htok : scan_s V = V := scan_s_token V hVws
  rw [hline]
  simp only [process_line, process_line_in, List.head?_cons, List.take, List.drop]
  simp [process_var, hname, hN, hNlen, htok, hV, hVlen, hrv, Outcome.bind]


/-- C4 as amended, at the empty table and the line `var y=$x`. -/
theorem C4_undefined_reference_then_raw_value_stored_witness :
    process_line exactOps 0 (Interp.init []) ("var ".toList ++ "y".toList ++ '=' :: "$x".toList)
      = .ok ⟨[⟨"y".toList, "$x".toList⟩], [], "Error: Undefined variable x\n".toList, [], []⟩ :=
  (C4_undefined_reference_then_raw_value_stored exactOps 0 (Interp.init [])
    "y".toList "$x".toList "x".toList (by decide) (by decide) (by decide) (by decide)
    (by decide) (by decide) (by decide) (by decide) (by decide) (by decide)).trans (by decide)

/-- C5 fails as stated: after `func greet print($name)` with `name` undefined, `call greet`
writes the report and then the stored body as it is. -/
theorem C5_counterexample_body_printed_after_report :
    ∃ st1, process_lines exactOps 0 (Interp.init [])
        ["func greet print($name)".toList, "call greet".toList] = .ok st1 ∧
      st1.out = "Error: Undefined variable name\n".toList ++ "print($name)\n".toList ∧
      st1.out ≠ "Error: Undefined variable name\n".toList :=
  ⟨⟨[], [⟨"greet".toList, "print($name)".toList⟩],
      "Error: Undefined variable name\nprint($name)\n".toList, [], []⟩,
    by decide, by decide, by decide⟩

/-- C5 as amended.  When `F` is defined with a body whose leftmost reference to an absent
variable is `x`, `call F` reports `Undefined variable x` and then prints the stored body
as written, followed by a newline; the tables are unchanged. -/
theorem C5_call_reports_then_prints_raw_body {F : Type} (ops : DoubleOps F) (fuel : Nat)
    (st : Interp) (name body x : List Char)
    (hF : name ≠ []) (hFws : ∀ c ∈ name, isspace c = false)
    (hFlen : name.length < MAX_FUNC_NAME)
    (hfind : find_function st.funcs name = some body)
    (hbody : body.length < MAX_FUNC_BODY)
    (hwf : ∀ v ∈ st.vars, v.name.length < MAX_VAR_NAME)
    (hmiss : (expand st.vars body).missing = some x)
    (hx : x.length < MAX_VAR_NAME)
    (hfit : (expand st.vars body).text.length < MAX_VAR_VALUE * 2) :
    process_line ops fuel st ("call ".toList ++ name)
      = .ok { st with out := st.out ++ "Error: Undefined variable ".toList ++ x ++ "\n".toList
          ++ body ++ "\n".toList } := by
  have hrv := replace_variables_of_missing MAX_FUNC_BODY st body x hwf hmiss hx hfit
  have hline : "call ".toList ++ name = 'c' :: 'a' :: 'l' :: 'l' :: ' ' :: name := rfl
  have htok : scan_s name = name := scan_s_token name hFws
  rw [hline]
  simp only [process_line, process_line_in, List.head?_cons, List.take, List.drop]
  simp [process_call, htok, hF, hFlen, execute_function, hfind, hbody, hrv, Outcome.bind,
    Interp.printf]

/-- C5 as amended, at `greet` with body `print($name)` and no variable. -/
theorem C5_call_reports_then_prints_raw_body_witness :
    process_line exactOps 0 ⟨[], [⟨"greet".toList, "print($name)".toList⟩], [], [], []⟩
        ("call ".toList ++ "greet".toList)
      = .ok ⟨[], [⟨"greet".toList, "print($name)".toList⟩],
          "Error: Undefined variable name\nprint($name)\n".toList, [], []⟩ :=
  C5_call_reports_then_prints_raw_body exactOps 0
    ⟨[], [⟨"greet".toList, "print($name)".toList⟩], [], [], []⟩
    "greet".toList "print($name)".toList "name".toList (by decide) (by decide) (by decide)
    (by decide) (by decide) (by decide) (by decide) (by decide) (by decide)

theorem find_function_eq_none_iff (funcs : List Function) (name : List Char) :
    find_function funcs name = none ↔ ∀ f ∈ funcs, f.name ≠ name := by
  induction funcs with
  | nil => simp [find_function]
  | cons f rest ih =>
    by_cases h : f.name = name
    · simp [find_function, h]
    · simp [find_function, h, ih]

theorem define_function_loop_eq_none_iff (funcs : List Function) (name body : List Char) :
    define_function_loop funcs name body = none ↔ find_function funcs name = none := by
  induction funcs with
  | nil => simp [define_function_loop, find_function]
  | cons f rest ih =>
    by_cases h : f.name = name
    · simp [define_function_loop, find_function, h]
    · simp [define_function_loop, find_function, h, ih]

theorem find_function_of_define_function_loop (funcs : List Function)
    (name body : List Char) :
    ∀ fs, define_function_loop funcs name body = some fs →
      find_function fs name = some body := by
  induction funcs with
  | nil => simp [define_function_loop]
  | cons f rest ih =>
    intro fs hfs
    by_cases h : f.name = name
    · simp [define_function_loop, h] at hfs
      subst hfs
      simp [find_function, h]
    · simp [define_function_loop, h] at hfs
      obtain ⟨r, hr, rfl⟩ := hfs
      simp [find_function, h, ih r hr]

theorem find_function_append_new (funcs : List Function) (name body : List Char)
    (h : find_function funcs name = none) :
    find_function (funcs ++ [⟨name, body⟩]) name = some body := by
  induction funcs with
  | nil => simp [find_function]
  | cons f rest ih =>
    by_cases hf : f.name = name
    · simp [find_function, hf] at h
    · simp only [find_function, hf, if_false] at h
      simp [find_function, hf, ih h]

/-- The directive `%s` on `token ++ ' ' :: rest` reads the token and stops at the blank. -/
theorem scan_s_before_blank (t b : List Char) (ht : t ≠ [])
    (hws : ∀ c ∈ t, isspace c = false) :
    scan_s (t ++ ' ' :: b) = t ∧ after_s (t ++ ' ' :: b) = ' ' :: b := by
  have hdrop : (t ++ ' ' :: b).dropWhile isspace = t ++ ' ' :: b := by
    apply dropWhile_eq_self_of_head
    intro x hx
    cases t with
    | nil => exact absurd rfl ht
    | cons y r =>
      simp only [List.cons_append, List.head?_cons, Option.some.injEq] at hx
      exact hx ▸ hws y (by simp)
  have hall : ∀ x ∈ t, (fun c => !isspace c) x = true := by
    intro x hx; simp [hws x hx]
  have hblank : isspace ' ' = true := by decide
  constructor
  · unfold scan_s
    rw [hdrop, takeWhile_append_of_all _ t _ hall]
    simp [hblank]
  · unfold after_s
    rw [hdrop, dropWhile_append_of_all _ t _ hall]
    simp [hblank]

/-- C7 fails as stated: with ten functions defined, `func k hello` stores nothing and the
later `call k` finds no function. -/
theorem C7_counterexample_full_table :
    ∃ st1, process_lines exactOps 0 (Interp.init [])
        ["func a x".toList, "func b x".toList, "func c x".toList, "func d x".toList,
          "func e x".toList, "func f x".toList, "func g x".toList, "func h x".toList,
          "func i x".toList, "func j x".toList, "func k hello".toList, "call k".toList]
        = .ok st1 ∧
      find_function st1.funcs "k".toList = none ∧
      st1.out = "Error: Too many functions\nError: Undefined function k\n".toList := by
  refine ⟨⟨[], [⟨"a".toList, "x".toList⟩, ⟨"b".toList, "x".toList⟩, ⟨"c".toList, "x".toList⟩,
    ⟨"d".toList, "x".toList⟩, ⟨"e".toList, "x".toList⟩, ⟨"f".toList, "x".toList⟩,
    ⟨"g".toList, "x".toList⟩, ⟨"h".toList, "x".toList⟩, ⟨"i".toList, "x".toList⟩,
    ⟨"j".toList, "x".toList⟩],
    "Error: Too many functions\nError: Undefined function k\n".toList, [], []⟩, ?_, ?_, ?_⟩
  · decide
  · decide
  · decide

/-- C7 as amended.  For a token `name` and a body that is not empty, does not begin with
white space and holds no newline (both fitting their arrays), when `name` is already
defined or fewer than `MAX_FUNCS` functions are: `func name body` stores the body as
written and leaves the variables and the output alone; and in every later state where
that body is still stored under `name`, `call name` prints the reference interpolation
of the body under the variables of that state, provided every variable it references is
defined there and the text fits the working buffer. -/
theorem C7_body_stored_raw_and_interpolated_at_call {F : Type} (ops : DoubleOps F)
    (fuel : Nat) (st : Interp) (name body : List Char)
    (hF : name ≠ []) (hFws : ∀ c ∈ name, isspace c = false)
    (hFlen : name.length < MAX_FUNC_NAME)
    (hB : body ≠ []) (hBhead : ∀ c, body.head? = some c → isspace c = false)
    (hBnl : '\n' ∉ body) (hBlen : body.length < MAX_FUNC_BODY)
    (hcap : (∃ f ∈ st.funcs, f.name = name) ∨ st.funcs.length < MAX_FUNCS) :
    (∃ st1, process_line ops fuel st ("func ".toList ++ name ++ ' ' :: body) = .ok st1 ∧
      find_function st1.funcs name = some body ∧ st1.vars = st.vars ∧ st1.out = st.out) ∧
    (∀ st2 : Interp, find_function st2.funcs name = some body →
      (∀ v ∈ st2.vars, v.name.length < MAX_VAR_NAME) →
      (expand st2.vars body).missing = none →
      (expand st2.vars body).text.length < MAX_VAR_VALUE * 2 →
      process_line ops fuel st2 ("call ".toList ++ name)
        = .ok { st2 with out := st2.out ++ (expand st2.vars body).text ++ "\n".toList }) := by
  constructor
  · have hline : "func ".toList ++ name ++ ' ' :: body
        = 'f' :: 'u' :: 'n' :: 'c' :: ' ' :: (name ++ ' ' :: body) := rfl
    obtain ⟨htok, hafter⟩ := scan_s_before_blank name body hF hFws
    have hblank : isspace ' ' = true := by decide
    have hbody : scan_until '\n' (((' ' :: body)).dropWhile isspace) = body := by
      rw [List.dropWhile_cons_of_pos hblank, dropWhile_eq_self_of_head isspace body hBhead]
      unfold scan_until
      exact takeWhile_eq_self_of_all _ body (by
        intro x hx
        have : x ≠ '\n' := fun h => hBnl (h ▸ hx)
        simp [this])
    have hproc : process_line ops fuel st ('f' :: 'u' :: 'n' :: 'c' :: ' ' :: (name ++ ' ' :: body))
        = define_function st name body := by
      simp only [process_line, process_line_in, List.head?_cons, List.take, List.drop]
      simp [process_func, htok, hafter, hbody, hF, hFlen, hB, hBlen]
    rw [hline, hproc]
    cases hloop : define_function_loop st.funcs name body with
    | some fs =>
      exact ⟨{ st with funcs := fs }, by simp [define_function, hloop, hBlen],
        find_function_of_define_function_loop _ _ _ fs hloop, rfl, rfl⟩
    | none =>
      have hnone : find_function st.funcs name = none :=
        (define_function_loop_eq_none_iff _ _ _).1 hloop
      have hlen : st.funcs.length < MAX_FUNCS := by
        rcases hcap with ⟨f, hmem, hname⟩ | hlen
        · exact absurd hname ((find_function_eq_none_iff _ _).1 hnone f hmem)
        · exact hlen
      exact ⟨{ st with funcs := st.funcs ++ [⟨name, body⟩] },
        by simp [define_function, hloop, hlen, hFlen, hBlen],
        find_function_append_new _ _ _ hnone, rfl, rfl⟩
  · intro st2 hfind hwf hdef hfit
    have hfit2 : (expand st2.vars body).text.length < MAX_FUNC_BODY := by
      have : MAX_VAR_VALUE * 2 ≤ MAX_FUNC_BODY := by decide
      omega
    have hrv := replace_variables_of_defined MAX_FUNC_BODY st2 body hwf hdef ⟨hfit, hfit2⟩
    have hline : "call ".toList ++ name = 'c' :: 'a' :: 'l' :: 'l' :: ' ' :: name := rfl
    have htok : scan_s name = name := scan_s_token name hFws
    rw [hline]
    simp only [process_line, process_line_in, List.head?_cons, List.take, List.drop]
    simp [process_call, htok, hF, hFlen, execute_function, hfind, hBlen, hrv, Outcome.bind,
      Interp.printf]

/-- C7 as amended, at the empty tables with `greet` and the body `Hi $n`. -/
theorem C7_body_stored_raw_and_interpolated_at_call_witness :
    (∃ st1, process_line exactOps 0 (Interp.init [])
        ("func ".toList ++ "greet".toList ++ ' ' :: "Hi $n".toList) = .ok st1 ∧
      find_function st1.funcs "greet".toList = some "Hi $n".toList ∧
      st1.vars = (Interp.init []).vars ∧ st1.out = (Interp.init []).out) ∧
    (∀ st2 : Interp, find_function st2.funcs "greet".toList = some "Hi $n".toList →
      (∀ v ∈ st2.vars, v.name.length < MAX_VAR_NAME) →
      (expand st2.vars "Hi $n".toList).missing = none →
      (expand st2.vars "Hi $n".toList).text.length < MAX_VAR_VALUE * 2 →
      process_line exactOps 0 st2 ("call ".toList ++ "greet".toList)
        = .ok { st2 with
            out := st2.out ++ (expand st2.vars "Hi $n".toList).text ++ "\n".toList }) :=
  C7_body_stored_raw_and_interpolated_at_call exactOps 0 (Interp.init [])
    "greet".toList "Hi $n".toList (by decide) (by decide) (by decide) (by decide)
    (by decide) (by decide) (by decide) (Or.inr (by decide))

/-- Two calls of one function around an assignment print different texts. -/
theorem call_sees_current_variables :
    process_lines exactOps 0 (Interp.init [])
        ["func greet Hi $n".toList, "var n=Ann".toList, "call greet".toList,
          "var n=Bob".toList, "call greet".toList]
      = .ok ⟨[⟨"n".toList, "Bob".toList⟩], [⟨"greet".toList, "Hi $n".toList⟩],
          "Hi Ann\nHi Bob\n".toList, [], []⟩ := by
  decide

theorem occurs_cons (shape : List Char → Bool) (c : Char) (rest : List Char) :
    occurs shape (c :: rest) = (shape (c :: rest) || occurs shape rest) := by
  simp [occurs]

/-- C8 fails as stated: the text backslash, `x`, `z`, `z` holds neither `\033` nor a
backslash-x followed by two hexadecimal digits, and is rewritten to a single NUL, so that
the string printed is empty. -/
theorem C8_counterexample_backslash_x_without_hex_digits :
    occurs starts_esc033 (BACKSLASH :: "xzz".toList) = false ∧
    occurs starts_hex_escape (BACKSLASH :: "xzz".toList) = false ∧
    process_escape_sequences (BACKSLASH :: "xzz".toList) = .ok [NUL] ∧
    c_str [NUL] = [] ∧
    Outcome.ok [NUL] ≠ Outcome.ok (BACKSLASH :: "xzz".toList) := by
  refine ⟨by decide, by decide, by decide, by decide, by decide⟩

/-- C8 as amended.  A text that holds neither `\033` nor a backslash immediately followed
by `x` is returned unchanged. -/
theorem C8_text_without_escape_unchanged (text : List Char)
    (h033 : occurs starts_esc033 text = false)
    (hx : occurs starts_backslash_x text = false) :
    process_escape_sequences text = .ok text := by
  induction text with
  | nil => rfl
  | cons c rest ih =>
    rw [occurs_cons] at h033 hx
    simp only [Bool.or_eq_false_iff] at h033 hx
    have ihr := ih h033.2 hx.2
    match rest, h033, hx, ihr with
    | [], _, _, ihr =>
      unfold process_escape_sequences
      simp [ihr, Outcome.bind]
    | [a], _, hx, ihr =>
      have h1 : ¬ (c = BACKSLASH ∧ a = 'x') := by simpa [starts_backslash_x] using hx.1
      unfold process_escape_sequences
      simp [h1, ihr, Outcome.bind]
    | [a, b], _, hx, ihr =>
      have h1 : ¬ (c = BACKSLASH ∧ a = 'x') := by simpa [starts_backslash_x] using hx.1
      unfold process_escape_sequences
      simp [h1, ihr, Outcome.bind]
    | a :: b :: d :: r, h033, hx, ihr =>
      have h1 : ¬ (c = BACKSLASH ∧ a = 'x') := by simpa [starts_backslash_x] using hx.1
      have h2 : ¬ (c = BACKSLASH ∧ a = '0' ∧ b = '3' ∧ d = '3') := by
        simpa [starts_esc033] using h033.1
      simp only [process_escape_sequences, h1, h2, if_false, ihr, Outcome.bind]

/-- C8 as amended, at backslash-n followed by `ok`. -/
theorem C8_text_without_escape_unchanged_witness :
    process_escape_sequences (BACKSLASH :: "nok".toList) = .ok (BACKSLASH :: "nok".toList) :=
  C8_text_without_escape_unchanged (BACKSLASH :: "nok".toList) (by decide) (by decide)

theorem isxdigit_facts (b : Char) (hb : isxdigit b = true) :
    isspace b = false ∧ b ≠ '+' ∧ b ≠ '-' ∧ digit_value b < 16 := by
  have hr : (48 ≤ b.toNat ∧ b.toNat ≤ 57) ∨ (65 ≤ b.toNat ∧ b.toNat ≤ 70) ∨
      (97 ≤ b.toNat ∧ b.toNat ≤ 102) := by
    simp only [isxdigit, isdigit, Bool.or_eq_true, Bool.and_eq_true, decide_eq_true_eq] at hb
    omega
  refine ⟨?_, ?_, ?_, ?_⟩
  · simp only [isspace, Bool.or_eq_false_iff, Bool.and_eq_false_iff, decide_eq_false_iff_not]
    omega
  · rintro rfl; revert hb; decide
  · rintro rfl; revert hb; decide
  · simp only [digit_value, isdigit, Bool.and_eq_true, decide_eq_true_eq]
    split_ifs <;> omega

/-- On two hexadecimal digits `strtol` and the conversion to `char` give the byte they
write. -/
theorem char_of_strtol16_hex (b d : Char) (hb : isxdigit b = true) (hd : isxdigit d = true) :
    char_of_long (strtol16 [b, d]) = Char.ofNat (16 * digit_value b + digit_value d) := by
  obtain ⟨hbs, hbp, hbm, hbv⟩ := isxdigit_facts b hb
  obtain ⟨_, _, _, hdv⟩ := isxdigit_facts d hd
  have hdrop : [b, d].dropWhile isspace = [b, d] := by
    simp [List.dropWhile, hbs]
  have hsign : scan_sign [b, d] = 0 := by
    unfold scan_sign
    split
    · rename_i h; exact absurd (List.cons.inj h).1 hbp
    · rename_i h; exact absurd (List.cons.inj h).1 hbm
    · rfl
  have hval : strtol16 [b, d] = ((16 * digit_value b + digit_value d : Nat) : Int) := by
    simp only [strtol16, hdrop, hsign, List.drop, List.head?_cons, Option.some.injEq, hbm,
      if_false]
    simp [List.takeWhile, hb, hd, parse_nat]
    ring
  rw [hval]
  unfold char_of_long
  congr 1
  omega

/-- C9 fails as stated: of backslash, `x`, `g`, `1` the reference decoder copies all four
characters (no escape is recognised), whereas the code writes the single byte 0; and on
backslash, `x`, `4` the code steps over the terminator after three characters. -/
theorem C9_counterexample_backslash_x_not_checked :
    decode_escapes (BACKSLASH :: "xg1".toList) = BACKSLASH :: "xg1".toList ∧
    process_escape_sequences (BACKSLASH :: "xg1".toList) = .ok [NUL] ∧
    Outcome.ok [NUL] ≠ Outcome.ok (decode_escapes (BACKSLASH :: "xg1".toList)) ∧
    process_escape_sequences (BACKSLASH :: "x4".toList) = .undefined := by
  refine ⟨by decide, by decide, by decide, by decide⟩

theorem process_escape_sequences_eq_decode_aux :
    ∀ (n : Nat) (text : List Char), text.length ≤ n →
      (∀ s ∈ text.tails, starts_backslash_x s = true → starts_hex_escape s = true) →
      process_escape_sequences text = .ok (decode_escapes text) := by
  intro n
  induction n with
  | zero =>
    intro text hlen _
    have : text = [] := List.length_eq_zero.mp (Nat.le_zero.mp hlen)
    subst this
    rfl
  | succ n ih =>
    intro text hlen h
    match text, hlen, h with
    | [], _, _ => rfl
    | [c], _, _ =>
      unfold process_escape_sequences decode_escapes
      simp [process_escape_sequences, decode_escapes, Outcome.bind]
    | [c, a], hlen, h =>
      simp only [List.length_cons, List.length_nil] at hlen
      have h1 : ¬ (c = BACKSLASH ∧ a = 'x') := by
        intro hc
        have := h [c, a] (by simp) (by simp [starts_backslash_x, hc])
        simp [starts_hex_escape] at this
      have ihr := ih [a] (by simp only [List.length_cons, List.length_nil]; omega) (fun s hs => h s (by
        simp only [List.tails, List.mem_cons] at hs ⊢; tauto))
      unfold process_escape_sequences decode_escapes
      simp [h1, ihr, Outcome.bind]
    | [c, a, b], hlen, h =>
      simp only [List.length_cons, List.length_nil] at hlen
      have h1 : ¬ (c = BACKSLASH ∧ a = 'x') := by
        intro hc
        have := h [c, a, b] (by simp) (by simp [starts_backslash_x, hc])
        simp [starts_hex_escape] at this
      have ihr := ih [a, b] (by simp only [List.length_cons, List.length_nil]; omega) (fun s hs => h s (by
        simp only [List.tails, List.mem_cons] at hs ⊢; tauto))
      unfold process_escape_sequences decode_escapes
      simp [h1, ihr, Outcome.bind]
    | c :: a :: b :: d :: r, hlen, h =>
      simp only [List.length_cons] at hlen
      have htail : ∀ s ∈ (a :: b :: d :: r).tails, s ∈ (c :: a :: b :: d :: r).tails := by
        intro s hs
        simp only [List.tails, List.mem_cons] at hs ⊢
        tauto
      have htail4 : ∀ s ∈ r.tails, s ∈ (c :: a :: b :: d :: r).tails := by
        intro s hs
        simp only [List.tails, List.mem_cons] at hs ⊢
        tauto
      have ihr := ih (a :: b :: d :: r) (by simp only [List.length_cons]; omega)
        (fun s hs => h s (htail s hs))
      have ih4 := ih r (by omega) (fun s hs => h s (htail4 s hs))
      unfold process_escape_sequences decode_escapes
      by_cases h033 : c = BACKSLASH ∧ a = '0' ∧ b = '3' ∧ d = '3'
      · simp only [if_pos h033, ih4, Outcome.bind]
      · by_cases hbx : c = BACKSLASH ∧ a = 'x'
        · have hhex := h (c :: a :: b :: d :: r) (by simp) (by simp [starts_backslash_x, hbx])
          simp only [starts_hex_escape, Bool.decide_and, Bool.decide_eq_true, Bool.and_eq_true,
            decide_eq_true_eq] at hhex
          have hcond : c = BACKSLASH ∧ a = 'x' ∧ isxdigit b = true ∧ isxdigit d = true :=
            ⟨hhex.1, hhex.2.1, hhex.2.2.1, hhex.2.2.2⟩
          simp only [if_neg h033, if_pos hbx, if_pos hcond, ih4, Outcome.bind,
            char_of_strtol16_hex b d hhex.2.2.1 hhex.2.2.2]
        · have hcond : ¬ (c = BACKSLASH ∧ a = 'x' ∧ isxdigit b = true ∧ isxdigit d = true) :=
            fun hc => hbx ⟨hc.1, hc.2.1⟩
          simp only [if_neg h033, if_neg hbx, if_neg hcond, ihr, Outcome.bind]

/-- C9 as amended.  For a text in which every backslash immediately followed by `x` is
followed by two hexadecimal digits, `process_escape_sequences` writes what the reference
decoder gives: one pass from left to right, `\033` giving the byte 27 and `\x` with two
hexadecimal digits the byte they write, each from four characters, all other characters
copied in order. -/
theorem C9_decoder_is_reference_decoder (text : List Char)
    (h : ∀ s ∈ text.tails, starts_backslash_x s = true → starts_hex_escape s = true) :
    process_escape_sequences text = .ok (decode_escapes text) :=
  process_escape_sequences_eq_decode_aux text.length text (Nat.le_refl _) h

/-- C9 as amended, at backslash, `x`, `4`, `1`: the single byte `A`. -/
theorem C9_decoder_is_reference_decoder_witness :
    process_escape_sequences (BACKSLASH :: "x41".toList) = .ok ['A'] :=
  C9_decoder_is_reference_decoder (BACKSLASH :: "x41".toList) (by decide)

/-- The fuel that `replace_variables` gives its loop is never used up. -/
theorem replace_loop_ne_timeout (vars : List Variable) :
    ∀ (fuel : Nat) (p buffer : List Char), p.length < fuel →
      replace_loop vars fuel p buffer ≠ .timeout := by
  intro fuel
  induction fuel with
  | zero => intro p buffer h; omega
  | succ f ih =>
    intro p buffer h
    cases p with
    | nil => simp [replace_loop]
    | cons c q =>
      simp only [List.length_cons] at h
      have hdl := length_dropWhile_le_self isalnum q
      simp only [replace_loop]
      by_cases hc : c = '$' ∧ (q.head?.map isalpha = some true)
      · rw [if_pos hc]
        by_cases hn : (q.takeWhile isalnum).length < MAX_VAR_NAME
        · rw [if_pos hn]
          cases hg : get_var vars (q.takeWhile isalnum) with
          | none => simp
          | some v =>
            by_cases hb : buffer.length + v.length < MAX_VAR_VALUE * 2
            · simp only [if_pos hb]
              exact ih _ _ (by omega)
            · simp [if_neg hb]
        · simp [if_neg hn]
      · rw [if_neg hc]
        by_cases hb : buffer.length < MAX_VAR_VALUE * 2
        · rw [if_pos hb]
          exact ih _ _ (by omega)
        · simp [if_neg hb]

/-- More fuel does not change a result of `eval_loop` that was reached. -/
theorem eval_loop_fuel_mono {F : Type} (ops : DoubleOps F) :
    ∀ (fuel : Nat) (p : List Char) (result : F) (operator : Char),
      eval_loop ops fuel p result operator ≠ .timeout →
      ∀ k, eval_loop ops (fuel + k) p result operator = eval_loop ops fuel p result operator := by
  intro fuel
  induction fuel with
  | zero => intro p result operator h; simp [eval_loop] at h
  | succ f ih =>
    intro p result operator h k
    have hk : f + 1 + k = (f + k) + 1 := by omega
    rw [hk]
    cases p with
    | nil => simp [eval_loop]
    | cons c q =>
      simp only [eval_loop] at h ⊢
      cases hd : (c :: q).dropWhile isspace with
      | nil => simp
      | cons c1 q1 =>
        simp only [hd] at h ⊢
        by_cases h1 : (isdigit c1 || decide (c1 = '-')) = true
        · simp only [if_pos h1] at h ⊢
          exact ih _ _ _ h k
        · simp only [if_neg h1] at h ⊢
          by_cases h2 : c1 = '+' ∨ c1 = '-' ∨ c1 = '*' ∨ c1 = '/'
          · simp only [if_pos h2] at h ⊢
            exact ih _ _ _ h k
          · simp only [if_neg h2] at h ⊢
            exact ih _ _ _ h k

theorem delete_var_loop_eq_none_iff (vars : List Variable) (name : List Char) :
    delete_var_loop vars name = none ↔ ∀ v ∈ vars, v.name ≠ name := by
  induction vars with
  | nil => simp [delete_var_loop]
  | cons v rest ih =>
    by_cases h : v.name = name
    · simp [delete_var_loop, h]
    · simp [delete_var_loop, h, ih]

/-- The loops of `delete_var` take out the first entry with the name and keep the rest in
order. -/
theorem delete_var_loop_eq_some (vars : List Variable) (name : List Char) :
    ∀ vs, delete_var_loop vars name = some vs →
      ∃ pre v post, vars = pre ++ v :: post ∧ v.name = name ∧
        (∀ w ∈ pre, w.name ≠ name) ∧ vs = pre ++ post := by
  induction vars with
  | nil => simp [delete_var_loop]
  | cons v rest ih =>
    intro vs hvs
    by_cases h : v.name = name
    · simp only [delete_var_loop, h, if_true, Option.some.injEq] at hvs
      exact ⟨[], v, rest, rfl, h, by simp, by simp [hvs]⟩
    · simp only [delete_var_loop, h, if_false, Option.map_eq_some'] at hvs
      obtain ⟨r, hr, rfl⟩ := hvs
      obtain ⟨pre, w, post, hrest, hw, hpre, hr2⟩ := ih r hr
      refine ⟨v :: pre, w, post, by simp [hrest], hw, ?_, by simp [hr2]⟩
      intro x hx
      rcases List.mem_cons.1 hx with rfl | hx
      · exact h
      · exact hpre x hx

theorem filter_name_ne_of_split (pre post : List Variable) (v : Variable) (name : List Char)
    (hv : v.name = name) (huniq : ((pre ++ v :: post).map Variable.name).Nodup) :
    (pre ++ v :: post).filter (fun w => decide (w.name ≠ name)) = pre ++ post := by
  have hall : ∀ w ∈ pre ++ post, w.name ≠ name := by
    intro w hw hwn
    simp only [List.map_append, List.map_cons] at huniq
    have hnd := List.nodup_append.1 huniq
    have hcons := List.nodup_cons.1 hnd.2.1
    rcases List.mem_append.1 hw with hp | hp
    · exact hnd.2.2 (List.mem_map_of_mem Variable.name hp) (by simp [hv, hwn])
    · exact hcons.1 (by rw [hv, ← hwn]; exact List.mem_map_of_mem Variable.name hp)
  have hfilter : ∀ l : List Variable, (∀ w ∈ l, w.name ≠ name) →
      l.filter (fun w => decide (w.name ≠ name)) = l := by
    intro l hl
    exact List.filter_eq_self.2 (fun w hw => by simp [hl w hw])
  rw [List.filter_append, List.filter_cons_of_neg (by simp [hv]),
    hfilter pre (fun w hw => hall w (List.mem_append_left _ hw)),
    hfilter post (fun w hw => hall w (List.mem_append_right _ hw))]

/-- C11.  On a table with unique names `delete_var(name)` leaves the entries whose name
is not `name`, in their order and with their values; `get_var(name)` is absent
afterwards; if the name was present nothing is printed, and if it was absent the table is
unchanged and `Undefined variable name` is reported. -/
theorem C11_delete_var_removes_entry_keeps_order (st : Interp) (name : List Char)
    (huniq : (st.vars.map Variable.name).Nodup) :
    (delete_var st name).vars = st.vars.filter (fun v => decide (v.name ≠ name)) ∧
    get_var (delete_var st name).vars name = none ∧
    (delete_var st name).funcs = st.funcs ∧
    ((∃ v ∈ st.vars, v.name = name) → (delete_var st name).out = st.out) ∧
    ((∀ v ∈ st.vars, v.name ≠ name) → (delete_var st name).vars = st.vars ∧
      (delete_var st name).out
        = st.out ++ ("Error: Undefined variable ".toList ++ name ++ "\n".toList)) := by
  have hvars : (delete_var st name).vars
      = st.vars.filter (fun v => decide (v.name ≠ name)) := by
    cases hloop : delete_var_loop st.vars name with
    | none =>
      have habs := (delete_var_loop_eq_none_iff _ _).1 hloop
      simp only [delete_var, hloop, Interp.printf]
      exact (List.filter_eq_self.2 (fun w hw => by simp [habs w hw])).symm
    | some vs =>
      obtain ⟨pre, v, post, hsplit, hv, _, hvs⟩ := delete_var_loop_eq_some _ _ vs hloop
      simp only [delete_var, hloop]
      rw [hvs, hsplit, filter_name_ne_of_split pre post v name hv (hsplit ▸ huniq)]
  refine ⟨hvars, ?_, ?_, ?_, ?_⟩
  · rw [hvars, get_var_eq_none_iff]
    intro v hv
    simpa using (List.mem_filter.1 hv).2
  · cases hloop : delete_var_loop st.vars name <;> simp [delete_var, hloop, Interp.printf]
  · rintro ⟨v, hv, hname⟩
    cases hloop : delete_var_loop st.vars name with
    | none => exact absurd hname ((delete_var_loop_eq_none_iff _ _).1 hloop v hv)
    | some vs => simp [delete_var, hloop]
  · intro habs
    have hloop := (delete_var_loop_eq_none_iff _ _).2 habs
    simp [delete_var, hloop, Interp.printf]

/-- C11 on the table `[a, b, c]`: deleting `b` leaves `[a, c]`. -/
theorem C11_delete_var_removes_entry_keeps_order_witness :
    (delete_var ⟨[⟨"a".toList, "1".toList⟩, ⟨"b".toList, "2".toList⟩,
        ⟨"c".toList, "3".toList⟩], [], [], [], []⟩ "b".toList).vars
      = [⟨"a".toList, "1".toList⟩, ⟨"c".toList, "3".toList⟩] :=
  (C11_delete_var_removes_entry_keeps_order ⟨[⟨"a".toList, "1".toList⟩,
    ⟨"b".toList, "2".toList⟩, ⟨"c".toList, "3".toList⟩], [], [], [], []⟩ "b".toList
    (by decide)).1

/-- The search loop of `set_var` overwrites the value of the first entry with the name and
touches nothing else. -/
theorem set_var_loop_eq_some (vars : List Variable) (name value : List Char) :
    ∀ vs, set_var_loop vars name value = some vs →
      ∃ pre old post, vars = pre ++ ⟨name, old⟩ :: post ∧
        (∀ w ∈ pre, w.name ≠ name) ∧ vs = pre ++ ⟨name, value⟩ :: post := by
  induction vars with
  | nil => simp [set_var_loop]
  | cons v rest ih =>
    intro vs hvs
    by_cases h : v.name = name
    · simp only [set_var_loop, h, if_true, Option.some.injEq] at hvs
      refine ⟨[], v.value, rest, ?_, by simp, ?_⟩
      · cases v; simp only at h; simp [h]
      · simp [← hvs, h]
    · simp only [set_var_loop, h, if_false, Option.map_eq_some'] at hvs
      obtain ⟨r, hr, rfl⟩ := hvs
      obtain ⟨pre, old, post, hrest, hpre, hr2⟩ := ih r hr
      refine ⟨v :: pre, old, post, by simp [hrest], ?_, by simp [hr2]⟩
      intro x hx
      rcases List.mem_cons.1 hx with rfl | hx
      · exact h
      · exact hpre x hx

/-- C13.  With a name and a value that fit their arrays: for a present name `set_var`
overwrites the value of the first entry of that name and leaves the number of entries,
their order and all other entries as they were; for an absent name and a table with
room, the new entry is appended after the existing entries, which are unchanged. -/
theorem C13_set_var_changes_one_entry (st : Interp) (name value : List Char)
    (hn : name.length < MAX_VAR_NAME) (hv : value.length < MAX_VAR_VALUE) :
    ((∃ v ∈ st.vars, v.name = name) →
      ∃ pre old post, st.vars = pre ++ ⟨name, old⟩ :: post ∧
        (∀ w ∈ pre, w.name ≠ name) ∧
        set_var st name value = .ok { st with vars := pre ++ ⟨name, value⟩ :: post }) ∧
    ((∀ v ∈ st.vars, v.name ≠ name) → st.vars.length < MAX_VARS →
      set_var st name value = .ok { st with vars := st.vars ++ [⟨name, value⟩] }) := by
  constructor
  · rintro ⟨v, hmem, hname⟩
    cases hloop : set_var_loop st.vars name value with
    | none =>
      have := (get_var_eq_none_iff _ _).1 ((set_var_loop_eq_none_iff _ _ _).1 hloop) v hmem
      exact absurd hname this
    | some vs =>
      obtain ⟨pre, old, post, hsplit, hpre, hvs⟩ := set_var_loop_eq_some _ _ _ vs hloop
      exact ⟨pre, old, post, hsplit, hpre, by simp [set_var, hloop, hv, hvs]⟩
  · intro habs hlen
    have hloop : set_var_loop st.vars name value = none :=
      (set_var_loop_eq_none_iff _ _ _).2 ((get_var_eq_none_iff _ _).2 habs)
    simp [set_var, hloop, hlen, hn, hv]

/-- C13 on the table `[a, b]`: setting `a` changes its value in place, and the absent `c`
is appended. -/
theorem C13_set_var_changes_one_entry_witness :
    (∃ pre old post, [(⟨"a".toList, "1".toList⟩ : Variable), ⟨"b".toList, "2".toList⟩]
          = pre ++ ⟨"a".toList, old⟩ :: post ∧
        (∀ w ∈ pre, w.name ≠ "a".toList) ∧
        set_var ⟨[⟨"a".toList, "1".toList⟩, ⟨"b".toList, "2".toList⟩], [], [], [], []⟩
            "a".toList "9".toList
          = .ok ⟨pre ++ ⟨"a".toList, "9".toList⟩ :: post, [], [], [], []⟩) ∧
    set_var ⟨[⟨"a".toList, "1".toList⟩, ⟨"b".toList, "2".toList⟩], [], [], [], []⟩
        "c".toList "9".toList
      = .ok ⟨[⟨"a".toList, "1".toList⟩, ⟨"b".toList, "2".toList⟩,
          ⟨"c".toList, "9".toList⟩], [], [], [], []⟩ :=
  ⟨(C13_set_var_changes_one_entry
      ⟨[⟨"a".toList, "1".toList⟩, ⟨"b".toList, "2".toList⟩], [], [], [], []⟩
      "a".toList "9".toList (by decide) (by decide)).1
      ⟨⟨"a".toList, "1".toList⟩, by decide, rfl⟩,
    (C13_set_var_changes_one_entry
      ⟨[⟨"a".toList, "1".toList⟩, ⟨"b".toList, "2".toList⟩], [], [], [], []⟩
      "c".toList "9".toList (by decide) (by decide)).2 (by decide) (by decide)⟩

theorem Outcome.bind_eq_ok {α β : Type} (x : Outcome α) (f : α → Outcome β) (b : β) :
    x.bind f = .ok b ↔ ∃ a, x = .ok a ∧ f a = .ok b := by
  cases x <;> simp [Outcome.bind]

theorem same_tables_refl (st : Interp) : same_tables st st := ⟨rfl, rfl⟩

theorem same_tables_trans {a b c : Interp} (h1 : same_tables a b) (h2 : same_tables b c) :
    same_tables a c := ⟨h2.1.trans h1.1, h2.2.trans h1.2⟩

theorem same_tables_printf (st : Interp) (text : List Char) :
    same_tables st (st.printf text) := ⟨rfl, rfl⟩

theorem same_tables_eprintf (st : Interp) (text : List Char) :
    same_tables st (st.eprintf text) := ⟨rfl, rfl⟩

theorem wf_of_same_tables {st st1 : Interp} (h : same_tables st st1) (hwf : st.wf) :
    st1.wf := by
  unfold Interp.wf at hwf ⊢
  rw [h.1, h.2]
  exact hwf

/-- The function `replace_variables` writes to the output only. -/
theorem replace_variables_frame (cap : Nat) (st st1 : Interp) (str t : List Char)
    (h : replace_variables cap st str = .ok (t, st1)) :
    same_tables st st1 ∧ st1.err = st.err ∧ st1.inp = st.inp := by
  unfold replace_variables at h
  split at h
  · split_ifs at h
    simp only [Outcome.ok.injEq, Prod.mk.injEq] at h
    rw [← h.2]
    exact ⟨same_tables_refl st, rfl, rfl⟩
  · simp only [Outcome.ok.injEq, Prod.mk.injEq] at h
    rw [← h.2]
    exact ⟨same_tables_printf st _, rfl, rfl⟩
  · simp at h
  · simp at h

/-- The function `execute_function` writes to the output only. -/
theorem execute_function_frame (st st1 : Interp) (name : List Char)
    (h : execute_function st name = .ok st1) : same_tables st st1 := by
  unfold execute_function at h
  split at h
  · split_ifs at h
    obtain ⟨⟨t, st0⟩, hrv, hst⟩ := (Outcome.bind_eq_ok _ _ _).1 h
    simp only [Outcome.ok.injEq] at hst
    rw [← hst]
    exact same_tables_trans (replace_variables_frame _ _ _ _ _ hrv).1 (same_tables_printf _ _)
  · simp only [Outcome.ok.injEq] at h
    rw [← h]
    exact same_tables_printf st _

/-- The `if ` branch writes to the output only. -/
theorem process_if_frame {F : Type} (ops : DoubleOps F) (fuel : Nat) (st st1 : Interp)
    (rest : List Char) (h : process_if ops fuel st rest = .ok st1) : same_tables st st1 := by
  unfold process_if at h
  split_ifs at h
  obtain ⟨r, _, hst⟩ := (Outcome.bind_eq_ok _ _ _).1 h
  simp only [Outcome.ok.injEq] at hst
  rw [← hst]
  split_ifs
  · exact same_tables_printf st _
  · exact same_tables_refl st

/-- The `call ` branch writes to the output only. -/
theorem process_call_frame (st st1 : Interp) (rest : List Char)
    (h : process_call st rest = .ok st1) : same_tables st st1 := by
  unfold process_call at h
  split_ifs at h
  exact execute_function_frame _ _ _ h

/-- The fallback of `process_line` writes to the output only. -/
theorem process_display_frame (st st1 : Interp) (line : List Char)
    (h : process_display st line = .ok st1) : same_tables st st1 := by
  unfold process_display at h
  split_ifs at h
  obtain ⟨⟨t, st0⟩, hrv, h2⟩ := (Outcome.bind_eq_ok _ _ _).1 h
  obtain ⟨w, _, hst⟩ := (Outcome.bind_eq_ok _ _ _).1 h2
  simp only [Outcome.ok.injEq] at hst
  rw [← hst]
  exact same_tables_trans (replace_variables_frame _ _ _ _ _ hrv).1 (same_tables_printf _ _)

/-- The `var ` branch changes the tables through one call of `set_var` at most. -/
theorem process_var_step {F : Type} (ops : DoubleOps F) (fuel : Nat) (st st1 : Interp)
    (rest : List Char) (h : process_var ops fuel st rest = .ok st1) :
    same_tables st st1 ∨
      ∃ st0 name value, same_tables st st0 ∧ set_var st0 name value = .ok st1 := by
  unfold process_var at h
  simp only at h
  split_ifs at h
  · simp only [Outcome.ok.injEq] at h
    exact Or.inl (h ▸ same_tables_eprintf st _)
  · split at h
    · simp only [Outcome.ok.injEq] at h
      exact Or.inl (h ▸ same_tables_eprintf st _)
    · split_ifs at h
      · simp only [Outcome.ok.injEq] at h
        exact Or.inl (h ▸ same_tables_eprintf st _)
      · obtain ⟨⟨t, st0⟩, hrv, h2⟩ := (Outcome.bind_eq_ok _ _ _).1 h
        have hsame := (replace_variables_frame _ _ _ _ _ hrv).1
        simp only at h2
        split_ifs at h2
        · obtain ⟨r, _, hset⟩ := (Outcome.bind_eq_ok _ _ _).1 h2
          exact Or.inr ⟨st0, _, _, hsame, hset⟩
        · exact Or.inr ⟨st0, _, _, hsame, h2⟩

/-- The `input ` branch changes the tables through one call of `set_var` at most. -/
theorem process_input_step (st st1 : Interp) (line : List Char) (after : Option (List Char))
    (h : process_input st line after = .ok st1) :
    same_tables st st1 ∨
      ∃ st0 name value, same_tables st st0 ∧ set_var st0 name value = .ok st1 := by
  unfold process_input at h
  simp only at h
  split_ifs at h
  · split at h
    · exact Outcome.noConfusion h
    · split_ifs at h
      · simp only [Outcome.ok.injEq] at h
        refine Or.inl (h ▸ ?_)
        split <;> exact same_tables_trans (same_tables_printf _ _) (same_tables_eprintf _ _)
      · refine Or.inr ⟨_, _, _, ?_, h⟩
        split <;> exact ⟨rfl, rfl⟩
  · split at h
    · exact Outcome.noConfusion h
    · split_ifs at h
      · simp only [Outcome.ok.injEq] at h
        refine Or.inl (h ▸ ?_)
        split <;> exact same_tables_trans (same_tables_printf _ _) (same_tables_eprintf _ _)
      · refine Or.inr ⟨_, _, _, ?_, h⟩
        split <;> exact ⟨rfl, rfl⟩

theorem define_function_loop_eq_some (funcs : List Function) (name body : List Char) :
    ∀ fs, define_function_loop funcs name body = some fs →
      ∃ pre old post, funcs = pre ++ ⟨name, old⟩ :: post ∧
        (∀ w ∈ pre, w.name ≠ name) ∧ fs = pre ++ ⟨name, body⟩ :: post := by
  induction funcs with
  | nil => simp [define_function_loop]
  | cons f rest ih =>
    intro fs hfs
    by_cases h : f.name = name
    · simp only [define_function_loop, h, if_true, Option.some.injEq] at hfs
      refine ⟨[], f.body, rest, ?_, by simp, ?_⟩
      · cases f; simp only at h; simp [h]
      · simp [← hfs, h]
    · simp only [define_function_loop, h, if_false, Option.map_eq_some'] at hfs
      obtain ⟨r, hr, rfl⟩ := hfs
      obtain ⟨pre, old, post, hrest, hpre, hr2⟩ := ih r hr
      refine ⟨f :: pre, old, post, by simp [hrest], ?_, by simp [hr2]⟩
      intro x hx
      rcases List.mem_cons.1 hx with rfl | hx
      · exact h
      · exact hpre x hx

/-- A call of `set_var` that returns keeps the tables well formed. -/
theorem set_var_wf (st st1 : Interp) (name value : List Char) (hwf : st.wf)
    (h : set_var st name value = .ok st1) : st1.wf := by
  obtain ⟨hvn, hfn, hvl, hfl, hvfit, hffit⟩ := hwf
  unfold set_var at h
  split at h
  · rename_i vs hloop
    split_ifs at h with hv
    simp only [Outcome.ok.injEq] at h
    obtain ⟨pre, old, post, hsplit, _, hvs⟩ := set_var_loop_eq_some _ _ _ vs hloop
    subst h
    refine ⟨?_, hfn, ?_, hfl, ?_, hffit⟩
    · simpa [hvs, hsplit] using hvn
    · simpa [hvs, hsplit] using hvl
    · intro w hw
      simp only [hvs, List.mem_append, List.mem_cons] at hw
      rcases hw with hw | rfl | hw
      · exact hvfit w (by simp [hsplit, hw])
      · exact ⟨(hvfit ⟨name, old⟩ (by simp [hsplit])).1, hv⟩
      · exact hvfit w (by simp [hsplit, hw])
  · rename_i hloop
    have habs := (get_var_eq_none_iff _ _).1 ((set_var_loop_eq_none_iff _ _ _).1 hloop)
    split_ifs at h with hlen hfit
    · simp only [Outcome.ok.injEq] at h
      subst h
      refine ⟨?_, hfn, ?_, hfl, ?_, hffit⟩
      · simp only [List.map_append, List.map_cons, List.map_nil]
        refine List.nodup_append.2 ⟨hvn, by simp, ?_⟩
        intro a ha hb
        simp only [List.mem_singleton] at hb
        obtain ⟨w, hw, hwn⟩ := List.mem_map.1 ha
        exact habs w hw (hwn.trans hb)
      · simp only [List.length_append, List.length_singleton]
        exact hlen
      · intro w hw
        simp only [List.mem_append, List.mem_singleton] at hw
        rcases hw with hw | rfl
        · exact hvfit w hw
        · exact hfit
    · simp only [Outcome.ok.injEq] at h
      subst h
      exact ⟨hvn, hfn, hvl, hfl, hvfit, hffit⟩

/-- A call of `define_function` that returns keeps the tables well formed. -/
theorem define_function_wf (st st1 : Interp) (name body : List Char) (hwf : st.wf)
    (h : define_function st name body = .ok st1) : st1.wf := by
  obtain ⟨hvn, hfn, hvl, hfl, hvfit, hffit⟩ := hwf
  unfold define_function at h
  split at h
  · rename_i fs hloop
    split_ifs at h with hb
    simp only [Outcome.ok.injEq] at h
    obtain ⟨pre, old, post, hsplit, _, hfs⟩ := define_function_loop_eq_some _ _ _ fs hloop
    subst h
    refine ⟨hvn, ?_, hvl, ?_, hvfit, ?_⟩
    · simpa [hfs, hsplit] using hfn
    · simpa [hfs, hsplit] using hfl
    · intro w hw
      simp only [hfs, List.mem_append, List.mem_cons] at hw
      rcases hw with hw | rfl | hw
      · exact hffit w (by simp [hsplit, hw])
      · exact ⟨(hffit ⟨name, old⟩ (by simp [hsplit])).1, hb⟩
      · exact hffit w (by simp [hsplit, hw])
  · rename_i hloop
    have habs := (find_function_eq_none_iff _ _).1
      ((define_function_loop_eq_none_iff _ _ _).1 hloop)
    split_ifs at h with hlen hfit
    · simp only [Outcome.ok.injEq] at h
      subst h
      refine ⟨hvn, ?_, hvl, ?_, hvfit, ?_⟩
      · simp only [List.map_append, List.map_cons, List.map_nil]
        refine List.nodup_append.2 ⟨hfn, by simp, ?_⟩
        intro a ha hb
        simp only [List.mem_singleton] at hb
        obtain ⟨w, hw, hwn⟩ := List.mem_map.1 ha
        exact habs w hw (hwn.trans hb)
      · simp only [List.length_append, List.length_singleton]
        exact hlen
      · intro w hw
        simp only [List.mem_append, List.mem_singleton] at hw
        rcases hw with hw | rfl
        · exact hffit w hw
        · exact hfit
    · simp only [Outcome.ok.injEq] at h
      subst h
      exact ⟨hvn, hfn, hvl, hfl, hvfit, hffit⟩

/-- The function `delete_var` keeps the tables well formed. -/
theorem delete_var_wf (st : Interp) (name : List Char) (hwf : st.wf) :
    (delete_var st name).wf := by
  obtain ⟨hvn, hfn, hvl, hfl, hvfit, hffit⟩ := hwf
  unfold delete_var
  split
  · rename_i vs hloop
    obtain ⟨pre, v, post, hsplit, _, _, hvs⟩ := delete_var_loop_eq_some _ _ vs hloop
    have hsub : List.Sublist vs st.vars := by
      rw [hvs, hsplit]
      exact List.Sublist.append_left (List.sublist_cons_self v post) pre
    refine ⟨(hsub.map Variable.name).nodup hvn, hfn, ?_, hfl, ?_, hffit⟩
    · exact Nat.le_trans hsub.length_le hvl
    · intro w hw
      exact hvfit w (hsub.subset hw)
  · exact ⟨hvn, hfn, hvl, hfl, hvfit, hffit⟩

/-- A line that `process_line` gets through keeps the tables well formed, whatever its
array holds behind it. -/
theorem process_line_in_wf {F : Type} (ops : DoubleOps F) (fuel : Nat) (st st1 : Interp)
    (line : List Char) (after : Option (List Char)) (hwf : st.wf)
    (h : process_line_in ops fuel st line after = .ok st1) : st1.wf := by
  unfold process_line_in at h
  split_ifs at h
  · simp only [Outcome.ok.injEq] at h; exact h ▸ hwf
  · simp only [Outcome.ok.injEq] at h; exact h ▸ hwf
  · rcases process_var_step ops fuel st st1 _ h with hs | ⟨st0, n, v, hs, hset⟩
    · exact wf_of_same_tables hs hwf
    · exact set_var_wf st0 st1 n v (wf_of_same_tables hs hwf) hset
  · simp only [Outcome.ok.injEq] at h; exact h ▸ delete_var_wf st _ hwf
  · exact wf_of_same_tables (process_if_frame ops fuel st st1 _ h) hwf
  · unfold process_func at h
    simp only at h
    split_ifs at h
    exact define_function_wf st st1 _ _ hwf h
  · exact wf_of_same_tables (process_call_frame st st1 _ h) hwf
  · rcases process_input_step st st1 _ _ h with hs | ⟨st0, n, v, hs, hset⟩
    · exact wf_of_same_tables hs hwf
    · exact set_var_wf st0 st1 n v (wf_of_same_tables hs hwf) hset
  · exact wf_of_same_tables (process_display_frame st st1 _ h) hwf

/-- A line that `process_line` gets through keeps the tables well formed. -/
theorem process_line_wf {F : Type} (ops : DoubleOps F) (fuel : Nat) (st st1 : Interp)
    (line : List Char) (hwf : st.wf) (h : process_line ops fuel st line = .ok st1) :
    st1.wf :=
  process_line_in_wf ops fuel st st1 line (some []) hwf h

theorem init_wf (inp : List Char) : (Interp.init inp).wf := by
  simp [Interp.wf, Interp.init]

/-- Every state reached from a well-formed one by processing lines is well formed. -/
theorem process_lines_in_wf {F : Type} (ops : DoubleOps F) (fuel : Nat) :
    ∀ (lines : List (List Char × Option (List Char))) (st st1 : Interp), st.wf →
      process_lines_in ops fuel st lines = .ok st1 → st1.wf := by
  intro lines
  induction lines with
  | nil =>
    intro st st1 hwf h
    simp only [process_lines_in, Outcome.ok.injEq] at h
    exact h ▸ hwf
  | cons line rest ih =>
    intro st st1 hwf h
    simp only [process_lines_in] at h
    obtain ⟨st0, h0, hrest⟩ := (Outcome.bind_eq_ok _ _ _).1 h
    exact ih st0 st1 (process_line_in_wf ops fuel st st0 line.1 line.2 hwf h0) hrest

/-- The loop over lines that ended with a newline is the general one with the empty string
behind every line. -/
theorem process_lines_eq_process_lines_in {F : Type} (ops : DoubleOps F) (fuel : Nat) :
    ∀ (lines : List (List Char)) (st : Interp),
      process_lines ops fuel st lines
        = process_lines_in ops fuel st (lines.map fun line => (line, some [])) := by
  intro lines
  induction lines with
  | nil => intro st; rfl
  | cons line rest ih =>
    intro st
    simp only [process_lines, process_lines_in, List.map_cons, process_line]
    cases process_line_in ops fuel st line (some []) with
    | ok st0 => simp only [Outcome.bind]; exact ih st0
    | undefined => rfl
    | timeout => rfl

/-- Every state reached from a well-formed one by processing lines that ended with a
newline is well formed. -/
theorem process_lines_wf {F : Type} (ops : DoubleOps F) (fuel : Nat)
    (lines : List (List Char)) (st st1 : Interp) (hwf : st.wf)
    (h : process_lines ops fuel st lines = .ok st1) : st1.wf :=
  process_lines_in_wf ops fuel _ st st1 hwf
    ((process_lines_eq_process_lines_in ops fuel lines st).symm.trans h)

/-- C12.  In every state reached from the empty tables by processing a sequence of lines
(any lines, with anything behind them in the array of the caller, and any input) the
variable table holds at most one entry for a name, and so does the function table. -/
theorem C12_names_unique_in_reachable_states {F : Type} (ops : DoubleOps F) (fuel : Nat)
    (inp : List Char) (lines : List (List Char × Option (List Char))) (st : Interp)
    (h : process_lines_in ops fuel (Interp.init inp) lines = .ok st) :
    (st.vars.map Variable.name).Nodup ∧ (st.funcs.map Function.name).Nodup :=
  have hwf := process_lines_in_wf ops fuel lines (Interp.init inp) st (init_wf inp) h
  ⟨hwf.1, hwf.2.1⟩

/-- C12 after a script that assigns `a` twice, reads `a` from the input with the default
prompt and defines `f` twice. -/
theorem C12_names_unique_in_reachable_states_witness :
    (([⟨"a".toList, "3".toList⟩] : List Variable).map Variable.name).Nodup ∧
    (([⟨"f".toList, "y".toList⟩] : List Function).map Function.name).Nodup :=
  C12_names_unique_in_reachable_states exactOps 0 "3\n".toList
    [("var a=1".toList, some []), ("func f x".toList, some []), ("var a=2".toList, some []),
      ("input a".toList, some []), ("func f y".toList, some [])]
    ⟨[⟨"a".toList, "3".toList⟩], [⟨"f".toList, "y".toList⟩],
      "Enter value for a: ".toList, [], []⟩ (by decide)

/-- C14.  On a variable table holding `MAX_VARS` entries, none named `name`,
`set_var(name, value)` prints `Too many variables` and leaves both tables as they were;
on a function table holding `MAX_FUNCS` entries, none named `fname`, `define_function`
prints `Too many functions` and leaves both tables as they were; and in every state
reached from the empty tables by processing a sequence of lines the variable table holds
at most `MAX_VARS` entries and the function table at most `MAX_FUNCS`. -/
theorem C14_full_tables_reject_new_names :
    (∀ (st : Interp) (name value : List Char),
      st.vars.length = MAX_VARS → (∀ v ∈ st.vars, v.name ≠ name) →
      set_var st name value
        = .ok { st with out := st.out ++ "Error: Too many variables\n".toList }) ∧
    (∀ (st : Interp) (fname body : List Char),
      st.funcs.length = MAX_FUNCS → (∀ f ∈ st.funcs, f.name ≠ fname) →
      define_function st fname body
        = .ok { st with out := st.out ++ "Error: Too many functions\n".toList }) ∧
    (∀ (F : Type) (ops : DoubleOps F) (fuel : Nat) (inp : List Char)
      (lines : List (List Char × Option (List Char))) (st1 : Interp),
      process_lines_in ops fuel (Interp.init inp) lines = .ok st1 →
      st1.vars.length ≤ MAX_VARS ∧ st1.funcs.length ≤ MAX_FUNCS) := by
  refine ⟨?_, ?_, ?_⟩
  · intro st name value hvfull hvnew
    have hloop : set_var_loop st.vars name value = none :=
      (set_var_loop_eq_none_iff _ _ _).2 ((get_var_eq_none_iff _ _).2 hvnew)
    simp [set_var, hloop, hvfull, Interp.printf]
  · intro st fname body hffull hfnew
    have hloop : define_function_loop st.funcs fname body = none :=
      (define_function_loop_eq_none_iff _ _ _).2 ((find_function_eq_none_iff _ _).2 hfnew)
    simp [define_function, hloop, hffull, Interp.printf]
  · intro F ops fuel inp lines st1 h
    have hwf := process_lines_in_wf ops fuel lines (Interp.init inp) st1 (init_wf inp) h
    exact ⟨hwf.2.2.1, hwf.2.2.2.1⟩

/-- C14 on the table whose variables are named `0` to `99`, with no function defined,
on the table whose functions are named `0` to `9`, with no variable defined, and on a
script of two lines. -/
theorem C14_full_tables_reject_new_names_witness :
    set_var ⟨(List.range 100).map (fun i => ⟨Nat.toDigits 10 i, "v".toList⟩), [], [], [], []⟩
        "x".toList "1".toList
      = .ok ⟨(List.range 100).map (fun i => ⟨Nat.toDigits 10 i, "v".toList⟩), [],
          "Error: Too many variables\n".toList, [], []⟩ ∧
    define_function ⟨[], (List.range 10).map (fun i => ⟨Nat.toDigits 10 i, "b".toList⟩),
        [], [], []⟩ "g".toList "hello".toList
      = .ok ⟨[], (List.range 10).map (fun i => ⟨Nat.toDigits 10 i, "b".toList⟩),
          "Error: Too many functions\n".toList, [], []⟩ ∧
    ([⟨"a".toList, "1".toList⟩] : List Variable).length ≤ MAX_VARS ∧
    ([⟨"f".toList, "x".toList⟩] : List Function).length ≤ MAX_FUNCS :=
  ⟨C14_full_tables_reject_new_names.1
      ⟨(List.range 100).map (fun i => ⟨Nat.toDigits 10 i, "v".toList⟩), [], [], [], []⟩
      "x".toList "1".toList (by decide) (by decide),
    C14_full_tables_reject_new_names.2.1
      ⟨[], (List.range 10).map (fun i => ⟨Nat.toDigits 10 i, "b".toList⟩), [], [], []⟩
      "g".toList "hello".toList (by decide) (by decide),
    C14_full_tables_reject_new_names.2.2 Dbl exactOps 0 []
      [("var a=1".toList, some []), ("func f x".toList, none)]
      ⟨[⟨"a".toList, "1".toList⟩], [⟨"f".toList, "x".toList⟩], [], [], []⟩ (by decide)⟩

theorem eq_append_drop_of_take_eq (line p : List Char) (n : Nat) (h : line.take n = p) :
    line = p ++ line.drop n := by
  rw [← h]
  exact (List.take_append_drop n line).symm

/-- C19.  A line that is empty, starts with `.`, starts with `if `, starts with `call `,
or matches no command and is displayed, leaves both tables as they were whenever
`process_line` gets through it: only `var`, `-`, `func` and `input` lines can change
a table. -/
theorem C19_other_lines_leave_tables_unchanged {F : Type} (ops : DoubleOps F) (fuel : Nat)
    (st st1 : Interp) (line : List Char)
    (hline : line = [] ∨ line.head? = some '.' ∨ line.take 3 = "if ".toList ∨
      line.take 5 = "call ".toList ∨
      (¬ line.take 4 = "var ".toList ∧ ¬ line.head? = some '-' ∧
        ¬ line.take 5 = "func ".toList ∧ ¬ line.take 6 = "input ".toList))
    (h : process_line ops fuel st line = .ok st1) :
    st1.vars = st.vars ∧ st1.funcs = st.funcs := by
  rcases hline with rfl | hdot | hif | hcall | ⟨hvar, hdel, hfunc, hinput⟩
  · simp only [process_line, process_line_in, List.head?_nil, if_true, Outcome.ok.injEq] at h
    simp at h
    exact h ▸ ⟨rfl, rfl⟩
  · unfold process_line process_line_in at h
    rw [if_pos hdot] at h
    simp only [Outcome.ok.injEq] at h
    exact h ▸ ⟨rfl, rfl⟩
  · have hl := eq_append_drop_of_take_eq line _ 3 hif
    have hl2 : line = 'i' :: 'f' :: ' ' :: line.drop 3 := hl
    rw [hl2] at h
    have hp : process_line ops fuel st ('i' :: 'f' :: ' ' :: line.drop 3)
        = process_if ops fuel st (line.drop 3) := by
      simp only [process_line, process_line_in, List.head?_cons, List.take, List.drop]
      simp
    rw [hp] at h
    exact process_if_frame ops fuel st st1 _ h
  · have hl := eq_append_drop_of_take_eq line _ 5 hcall
    have hl2 : line = 'c' :: 'a' :: 'l' :: 'l' :: ' ' :: line.drop 5 := hl
    rw [hl2] at h
    have hp : process_line ops fuel st ('c' :: 'a' :: 'l' :: 'l' :: ' ' :: line.drop 5)
        = process_call st (line.drop 5) := by
      simp only [process_line, process_line_in, List.head?_cons, List.take, List.drop]
      simp
    rw [hp] at h
    exact process_call_frame st st1 _ h
  · unfold process_line process_line_in at h
    split_ifs at h
    · simp only [Outcome.ok.injEq] at h; exact h ▸ ⟨rfl, rfl⟩
    · simp only [Outcome.ok.injEq] at h; exact h ▸ ⟨rfl, rfl⟩
    · exact process_if_frame ops fuel st st1 _ h
    · exact process_call_frame st st1 _ h
    · exact process_display_frame st st1 _ h

/-- C19 on a table with `a` defined and `f` stored: the line `call f` prints and changes
neither table. -/
theorem C19_other_lines_leave_tables_unchanged_witness :
    (⟨[⟨"a".toList, "1".toList⟩], [⟨"f".toList, "v=$a".toList⟩], "v=1\n".toList, [], []⟩ :
        Interp).vars = [⟨"a".toList, "1".toList⟩] ∧
    (⟨[⟨"a".toList, "1".toList⟩], [⟨"f".toList, "v=$a".toList⟩], "v=1\n".toList, [], []⟩ :
        Interp).funcs = [⟨"f".toList, "v=$a".toList⟩] :=
  C19_other_lines_leave_tables_unchanged exactOps 0
    ⟨[⟨"a".toList, "1".toList⟩], [⟨"f".toList, "v=$a".toList⟩], [], [], []⟩
    ⟨[⟨"a".toList, "1".toList⟩], [⟨"f".toList, "v=$a".toList⟩], "v=1\n".toList, [], []⟩
    "call f".toList (Or.inr (Or.inr (Or.inr (Or.inl (by decide))))) (by decide)

/-- C20.  What an `if ` line does is the same in every state: when `process_line` gets
through the line in one state, having printed a text (nothing, or the fixed message), it
gets through it in any other state and prints the same text there; the condition token
goes to `evaluate_expression` as written, without interpolation. -/
theorem C20_if_line_independent_of_tables {F : Type} (ops : DoubleOps F) (fuel : Nat)
    (line : List Char) (st st' st1 : Interp)
    (hif : line.take 3 = "if ".toList)
    (h : process_line ops fuel st line = .ok st1) :
    ∃ text, (text = [] ∨ text = "Condition met, execute next line\n".toList) ∧
      st1 = st.printf text ∧ process_line ops fuel st' line = .ok (st'.printf text) := by
  have hl : line = 'i' :: 'f' :: ' ' :: line.drop 3 := eq_append_drop_of_take_eq line _ 3 hif
  have hp : ∀ s : Interp, process_line ops fuel s ('i' :: 'f' :: ' ' :: line.drop 3)
      = process_if ops fuel s (line.drop 3) := by
    intro s
    simp only [process_line, process_line_in, List.head?_cons, List.take, List.drop]
    simp
  rw [hl, hp] at h
  rw [hl, hp]
  unfold process_if at h ⊢
  split_ifs at h ⊢ with hundef
  obtain ⟨r, hr, hst⟩ := (Outcome.bind_eq_ok _ _ _).1 h
  simp only [Outcome.ok.injEq] at hst
  rw [hr]
  simp only [Outcome.bind]
  by_cases hz : ops.ne_zero r = true
  · refine ⟨"Condition met, execute next line\n".toList, Or.inr rfl, ?_, ?_⟩
    · rw [← hst, if_pos hz]
    · rw [if_pos hz]
  · refine ⟨[], Or.inl rfl, ?_, ?_⟩
    · rw [← hst, if_neg hz]; simp [Interp.printf]
    · rw [if_neg hz]; simp [Interp.printf]

/-- C20 on `if $a`: with `a = 5` nothing is printed, and so it is with `a = 0`. -/
theorem C20_if_line_independent_of_tables_witness :
    ∃ text, (text = [] ∨ text = "Condition met, execute next line\n".toList) ∧
      (⟨[⟨"a".toList, "5".toList⟩], [], [], [], []⟩ : Interp)
        = (⟨[⟨"a".toList, "5".toList⟩], [], [], [], []⟩ : Interp).printf text ∧
      process_line exactOps 3 ⟨[⟨"a".toList, "0".toList⟩], [], [], [], []⟩ "if $a".toList
        = .ok ((⟨[⟨"a".toList, "0".toList⟩], [], [], [], []⟩ : Interp).printf text) :=
  C20_if_line_independent_of_tables exactOps 3 "if $a".toList
    ⟨[⟨"a".toList, "5".toList⟩], [], [], [], []⟩
    ⟨[⟨"a".toList, "0".toList⟩], [], [], [], []⟩
    ⟨[⟨"a".toList, "5".toList⟩], [], [], [], []⟩ (by decide) (by decide)

/-- At a `-` that starts no number `strtod` converts nothing and leaves `p` where it was:
the loop of `evaluate_expression` comes back to the same `-` and never ends. -/
theorem eval_loop_stuck_at_minus {F : Type} (ops : DoubleOps F) (q : List Char)
    (hq : strtod_len ('-' :: q) = 0) :
    ∀ (fuel : Nat) (result : F) (operator : Char),
      eval_loop ops fuel ('-' :: q) result operator = .timeout := by
  intro fuel
  induction fuel with
  | zero => intro result operator; rfl
  | succ f ih =>
    intro result operator
    have hsp : ¬ isspace '-' = true := by decide
    have hd : ('-' :: q).dropWhile isspace = '-' :: q := List.dropWhile_cons_of_neg hsp
    have hst : strtod ops ('-' :: q) = (ops.zero, '-' :: q) := by
      simp only [strtod, hd, hq, if_true]
    simp only [eval_loop, hd, hst]
    simp only [Bool.or_eq_true, decide_eq_true_eq, or_true, if_true]
    exact ih _ _

/-- C17 (code defect).  The lines `var a=x-y` and `if -` are never got through: whatever
the fuel, `process_line` is still inside the loop of `evaluate_expression`, which stands
at a `-` that starts no number. -/
theorem C17_bare_minus_hangs_the_interpreter {F : Type} (ops : DoubleOps F) (fuel : Nat)
    (st : Interp) :
    process_line ops fuel st "var a=x-y".toList = .timeout ∧
    process_line ops fuel st "if -".toList = .timeout := by
  have hstuck1 := eval_loop_stuck_at_minus ops "y".toList (by decide)
  have hstuck2 := eval_loop_stuck_at_minus ops [] (by decide)
  have hev1 : evaluate_expression ops fuel "x-y".toList = .timeout := by
    cases fuel with
    | zero => rfl
    | succ n =>
      have : evaluate_expression ops (n + 1) "x-y".toList
          = eval_loop ops n ('-' :: "y".toList) ops.zero '+' := rfl
      rw [this]
      exact hstuck1 n _ _
  have hev2 : evaluate_expression ops fuel "-".toList = .timeout := hstuck2 fuel _ _
  have hp1 : process_line ops fuel st "var a=x-y".toList
      = (evaluate_expression ops fuel "x-y".toList).bind fun result =>
          set_var st "a".toList ((ops.fmt_lf result).take (MAX_VAR_VALUE - 1)) := rfl
  have hp2 : process_line ops fuel st "if -".toList
      = (evaluate_expression ops fuel "-".toList).bind fun result =>
          .ok (if ops.ne_zero result then
            st.printf "Condition met, execute next line\n".toList else st) := rfl
  rw [hp1, hp2, hev1, hev2]
  exact ⟨rfl, rfl⟩

/-- C18 fails as stated: `-inf` holds no decimal digit and evaluates to minus infinity
(the `-` sends the text to `strtod`, which accepts `inf`). -/
theorem C18_counterexample_minus_inf :
    (∀ c ∈ "-inf".toList, isdigit c = false) ∧
    evaluate_expression exactOps 2 "-inf".toList = .ok (Dbl.inf true) ∧
    Outcome.ok (Dbl.inf true) ≠ Outcome.ok exactOps.zero := by
  refine ⟨by decide, by decide, by decide⟩

/-- Text without digit and without `-` that does not end in white space is skipped by the
loop of `evaluate_expression`, which leaves the accumulator alone. -/
theorem eval_loop_skips {F : Type} (ops : DoubleOps F) :
    ∀ (n : Nat) (p : List Char), p.length ≤ n →
      ∀ (fuel : Nat) (result : F) (operator : Char), p.length < fuel →
        (∀ c ∈ p, isdigit c = false ∧ c ≠ '-') →
        (∀ c, p.getLast? = some c → isspace c = false) →
        eval_loop ops fuel p result operator = .ok result := by
  intro n
  induction n with
  | zero =>
    intro p hp fuel result operator hfuel _ _
    have hnil : p = [] := List.length_eq_zero.mp (Nat.le_zero.mp hp)
    subst hnil
    obtain ⟨f, rfl⟩ : ∃ f, fuel = f + 1 := ⟨fuel - 1, by simp at hfuel; omega⟩
    rfl
  | succ n ih =>
    intro p hp fuel result operator hfuel hchars hlast
    obtain ⟨f, rfl⟩ : ∃ f, fuel = f + 1 := ⟨fuel - 1, by omega⟩
    cases p with
    | nil => rfl
    | cons c q =>
      simp only [List.length_cons] at hp hfuel
      cases hd : (c :: q).dropWhile isspace with
      | nil =>
        exfalso
        have hall := List.dropWhile_eq_nil_iff.1 hd
        cases hgl : (c :: q).getLast? with
        | none => simp at hgl
        | some x =>
          have h1 := hlast x hgl
          have h2 := hall x (List.mem_of_getLast?_eq_some hgl)
          simp [h1] at h2
      | cons c1 q1 =>
        obtain ⟨t, ht⟩ : ∃ t, t ++ c1 :: q1 = c :: q := hd ▸ List.dropWhile_suffix isspace
        have hlen : t.length + (q1.length + 1) = q.length + 1 := by
          have := congrArg List.length ht
          simpa using this
        have hc1 := hchars c1 (by rw [← ht]; simp)
        have hq1 : ∀ x ∈ q1, isdigit x = false ∧ x ≠ '-' := by
          intro x hx
          exact hchars x (by rw [← ht]; simp [hx])
        have hq1last : ∀ x, q1.getLast? = some x → isspace x = false := by
          intro x hx
          have hne : q1 ≠ [] := by rintro rfl; simp at hx
          have : (c :: q).getLast? = q1.getLast? := by
            rw [← ht, show t ++ c1 :: q1 = (t ++ [c1]) ++ q1 by simp]
            exact List.getLast?_append_of_ne_nil _ hne
          exact hlast x (this ▸ hx)
        have hrec : ∀ op, eval_loop ops f q1 result op = .ok result := fun op =>
          ih q1 (by omega) f result op (by omega) hq1 hq1last
        have hnum : ¬ ((isdigit c1 || decide (c1 = '-')) = true) := by
          simp [hc1.1, hc1.2]
        simp only [eval_loop, hd, if_neg hnum]
        split_ifs <;> exact hrec _

/-- C18 as amended.  For a text that holds no decimal digit and no `-` and does not end in
white space, `evaluate_expression` returns 0 (the fuel exceeding the length of the
text). -/
theorem C18_no_digit_no_minus_gives_zero {F : Type} (ops : DoubleOps F) (fuel : Nat)
    (expr : List Char)
    (hdigit : ∀ c ∈ expr, isdigit c = false) (hminus : '-' ∉ expr)
    (hlast : ∀ c, expr.getLast? = some c → isspace c = false)
    (hfuel : expr.length < fuel) :
    evaluate_expression ops fuel expr = .ok ops.zero :=
  eval_loop_skips ops expr.length expr (Nat.le_refl _) fuel ops.zero '+' hfuel
    (fun c hc => ⟨hdigit c hc, fun h => hminus (h ▸ hc)⟩) hlast

/-- C18 as amended, at the text `a+b*/ c`. -/
theorem C18_no_digit_no_minus_gives_zero_witness :
    evaluate_expression exactOps 8 "a+b*/ c".toList = .ok (Dbl.fin 0 1) :=
  C18_no_digit_no_minus_gives_zero exactOps 8 "a+b*/ c".toList
    (by decide) (by decide) (by decide) (by decide)

theorem occurs_dropWhile (shape : List Char → Bool) (f : Char → Bool) (l : List Char)
    (h : occurs shape l = false) : occurs shape (l.dropWhile f) = false := by
  induction l with
  | nil => simpa using h
  | cons c q ih =>
    rw [occurs_cons] at h
    simp only [Bool.or_eq_false_iff] at h
    by_cases hc : f c = true
    · rw [List.dropWhile_cons_of_pos hc]
      exact ih h.2
    · rw [List.dropWhile_cons_of_neg hc, occurs_cons]
      simp [h.1, h.2]

theorem occurs_reference_takeWhile (f : Char → Bool) (l : List Char)
    (h : occurs starts_reference l = false) :
    occurs starts_reference (l.takeWhile f) = false := by
  induction l with
  | nil => simpa using h
  | cons c q ih =>
    rw [occurs_cons] at h
    simp only [Bool.or_eq_false_iff] at h
    by_cases hc : f c = true
    · rw [List.takeWhile_cons_of_pos hc, occurs_cons, ih h.2, Bool.or_false]
      cases q with
      | nil => simp [starts_reference]
      | cons d r =>
        by_cases hd : f d = true
        · rw [List.takeWhile_cons_of_pos hd]
          simpa [starts_reference] using h.1
        · rw [List.takeWhile_cons_of_neg hd]
          simp [starts_reference]
    · rw [List.takeWhile_cons_of_neg hc]
      simp [occurs, starts_reference]

/-- A text without reference is copied by the loop of `replace_variables` as it is. -/
theorem replace_loop_no_reference (vars : List Variable) :
    ∀ (p : List Char) (fuel : Nat) (buffer : List Char),
      occurs starts_reference p = false → p.length < fuel →
      buffer.length + p.length < MAX_VAR_VALUE * 2 →
      replace_loop vars fuel p buffer = .ok (.done (buffer ++ p)) := by
  intro p
  induction p with
  | nil =>
    intro fuel buffer _ hfuel _
    obtain ⟨f, rfl⟩ : ∃ f, fuel = f + 1 := ⟨fuel - 1, by simp at hfuel; omega⟩
    simp [replace_loop]
  | cons c q ih =>
    intro fuel buffer href hfuel hfit
    obtain ⟨f, rfl⟩ : ∃ f, fuel = f + 1 := ⟨fuel - 1, by omega⟩
    simp only [List.length_cons] at hfuel hfit
    rw [occurs_cons] at href
    simp only [Bool.or_eq_false_iff] at href
    have hc : ¬ (c = '$' ∧ (q.head?.map isalpha = some true)) := by
      intro hc
      cases q with
      | nil => simp at hc
      | cons d r =>
        have := href.1
        simp only [List.head?_cons, Option.map_some', Option.some.injEq] at hc
        simp [starts_reference, hc.1, hc.2] at this
    have hb : buffer.length < MAX_VAR_VALUE * 2 := by omega
    simp only [replace_loop, if_neg hc, if_pos hb]
    rw [ih f (buffer ++ [c]) href.2 (by omega)
      (by simp only [List.length_append, List.length_singleton]; omega)]
    simp

/-- On a text without reference `replace_variables` changes nothing, whatever the
tables hold. -/
theorem replace_variables_no_reference (cap : Nat) (st : Interp) (str : List Char)
    (href : occurs starts_reference str = false)
    (hlen : str.length < MAX_VAR_VALUE * 2) (hcap : str.length < cap) :
    replace_variables cap st str = .ok (str, st) := by
  have h := replace_loop_no_reference st.vars str (str.length + 1) [] href
    (Nat.lt_succ_self _) (by simpa using hlen)
  simp only [replace_variables, h, List.nil_append, hlen, hcap, and_self, if_true]

/-- The `var ` branch on `N=V` with a well-formed name and a value token without
reference: `set_var` is called with a value that does not depend on the state. -/
theorem process_var_no_reference {F : Type} (ops : DoubleOps F) (fuel : Nat) (st : Interp)
    (N V : List Char) (hN : N ≠ []) (hNeq : '=' ∉ N) (hNlen : N.length < MAX_VAR_NAME)
    (htok : scan_s V ≠ []) (hlen : (scan_s V).length < MAX_VAR_VALUE)
    (href : occurs starts_reference (scan_s V) = false) :
    process_var ops fuel st (N ++ '=' :: V)
      = (assigned_value ops fuel (scan_s V)).bind fun value => set_var st N value := by
  have hname : scan_until '=' (N ++ '=' :: V) = N := scan_until_append '=' N V hNeq
  have hrv := replace_variables_no_reference MAX_VAR_VALUE st (scan_s V) href
    (by have : MAX_VAR_VALUE ≤ MAX_VAR_VALUE * 2 := by decide
        omega) hlen
  simp only [process_var, hname, hN, if_false, hNlen, not_true_eq_false,
    List.drop_left, htok, hlen, hrv, Outcome.bind, assigned_value]
  split_ifs
  · cases evaluate_expression ops fuel (scan_s V) <;> rfl
  · rfl

theorem set_var_loop_split (pre post : List Variable) (name old value : List Char)
    (hpre : ∀ w ∈ pre, w.name ≠ name) :
    set_var_loop (pre ++ ⟨name, old⟩ :: post) name value
      = some (pre ++ ⟨name, value⟩ :: post) := by
  induction pre with
  | nil => simp [set_var_loop]
  | cons w r ih =>
    have hw : w.name ≠ name := hpre w (by simp)
    simp [set_var_loop, hw, ih (fun x hx => hpre x (by simp [hx]))]

/-- Calling `set_var` a second time with the same arguments leaves the table as the
first call left it. -/
theorem set_var_twice (st st1 : Interp) (name value : List Char)
    (h : set_var st name value = .ok st1) :
    ∃ st2, set_var st1 name value = .ok st2 ∧ st2.vars = st1.vars := by
  unfold set_var at h
  split at h
  · rename_i vs hloop
    split_ifs at h with hv
    simp only [Outcome.ok.injEq] at h
    obtain ⟨pre, old, post, _, hpre, hvs⟩ := set_var_loop_eq_some _ _ _ vs hloop
    have h2 : set_var_loop st1.vars name value = some vs := by
      rw [← h]
      simp only [hvs]
      exact set_var_loop_split pre post name value value hpre
    exact ⟨{ st1 with vars := vs }, by simp [set_var, h2, hv], by rw [← h]⟩
  · rename_i hloop
    have habs := (get_var_eq_none_iff _ _).1 ((set_var_loop_eq_none_iff _ _ _).1 hloop)
    split_ifs at h with hlen hfit
    · simp only [Outcome.ok.injEq] at h
      have h2 : set_var_loop st1.vars name value = some (st.vars ++ [⟨name, value⟩]) := by
        rw [← h]
        exact set_var_loop_split st.vars [] name value value habs
      exact ⟨{ st1 with vars := st.vars ++ [⟨name, value⟩] },
        by simp [set_var, h2, hfit.2], by rw [← h]⟩
    · simp only [Outcome.ok.injEq] at h
      have h2 : set_var_loop st1.vars name value = none := by rw [← h]; exact hloop
      have hlen1 : ¬ st1.vars.length < MAX_VARS := by rw [← h]; exact hlen
      exact ⟨st1.printf "Error: Too many variables\n".toList,
        by simp [set_var, h2, hlen1], rfl⟩

/-- When `set_var` has room for the name, `get_var` gives the value afterwards. -/
theorem get_var_after_set_var (st : Interp) (name value : List Char)
    (hn : name.length < MAX_VAR_NAME) (hv : value.length < MAX_VAR_VALUE)
    (hcap : (∃ v ∈ st.vars, v.name = name) ∨ st.vars.length < MAX_VARS) :
    ∃ st1, set_var st name value = .ok st1 ∧ get_var st1.vars name = some value := by
  cases hloop : set_var_loop st.vars name value with
  | some vs =>
    exact ⟨{ st with vars := vs }, by simp [set_var, hloop, hv],
      get_var_of_set_var_loop _ _ _ vs hloop⟩
  | none =>
    have hnone : get_var st.vars name = none := (set_var_loop_eq_none_iff _ _ _).1 hloop
    have hlen : st.vars.length < MAX_VARS := by
      rcases hcap with ⟨v, hmem, hname⟩ | hlen
      · exact absurd hname ((get_var_eq_none_iff _ _).1 hnone v hmem)
      · exact hlen
    exact ⟨{ st with vars := st.vars ++ [⟨name, value⟩] },
      by simp [set_var, hloop, hlen, hn, hv], get_var_append_new _ _ _ hnone⟩

theorem occurs_reference_of_no_dollar (l : List Char) (h : '$' ∉ l) :
    occurs starts_reference l = false := by
  induction l with
  | nil => simp [occurs, starts_reference]
  | cons c q ih =>
    have hc : c ≠ '$' := fun hc => h (by simp [hc])
    rw [occurs_cons, ih (fun hq => h (by simp [hq])), Bool.or_false]
    cases q with
    | nil => simp [starts_reference]
    | cons d r => simp [starts_reference, hc]

theorem process_line_var {F : Type} (ops : DoubleOps F) (fuel : Nat) (st : Interp)
    (rest : List Char) :
    process_line ops fuel st ("var ".toList ++ rest) = process_var ops fuel st rest := by
  have hline : "var ".toList ++ rest = 'v' :: 'a' :: 'r' :: ' ' :: rest := rfl
  rw [hline]
  simp only [process_line, process_line_in, List.head?_cons, List.take, List.drop]
  simp

/-- C15 fails as stated: in `var a=hello world` the value text `hello world` holds no `$`
and no operator character, and `a` is left with `hello`, the text up to the blank. -/
theorem C15_counterexample_value_cut_at_blank :
    ∃ st1, process_line exactOps 0 (Interp.init []) "var a=hello world".toList = .ok st1 ∧
      get_var st1.vars "a".toList = some "hello".toList ∧
      get_var st1.vars "a".toList ≠ some "hello world".toList :=
  ⟨⟨[⟨"a".toList, "hello".toList⟩], [], [], [], []⟩, by decide, by decide, by decide⟩

/-- C15 as amended.  For a non-empty name `N` without `=` and a non-empty value `V`
without white space, without `$` and without `+ - * /` (both fitting their arrays), the
line `var N=V` is split at the first `=` and `V` is stored under `N`: `get_var(N)` is
`V` afterwards, when `N` was present or the table had room. -/
theorem C15_assignment_splits_at_first_equals {F : Type} (ops : DoubleOps F) (fuel : Nat)
    (st : Interp) (N V : List Char)
    (hN : N ≠ []) (hNeq : '=' ∉ N) (hNlen : N.length < MAX_VAR_NAME)
    (hV : V ≠ []) (hVws : ∀ c ∈ V, isspace c = false) (hVlen : V.length < MAX_VAR_VALUE)
    (hdollar : '$' ∉ V) (hops : '+' ∉ V ∧ '-' ∉ V ∧ '*' ∉ V ∧ '/' ∉ V)
    (hcap : (∃ v ∈ st.vars, v.name = N) ∨ st.vars.length < MAX_VARS) :
    ∃ st1, process_line ops fuel st ("var ".toList ++ N ++ '=' :: V) = .ok st1 ∧
      get_var st1.vars N = some V := by
  have htok : scan_s V = V := scan_s_token V hVws
  have hpv := process_var_no_reference ops fuel st N V hN hNeq hNlen (by rw [htok]; exact hV)
    (by rw [htok]; exact hVlen) (by rw [htok]; exact occurs_reference_of_no_dollar V hdollar)
  have hval : assigned_value ops fuel V = .ok V := by
    simp [assigned_value, hops.1, hops.2.1, hops.2.2.1, hops.2.2.2]
  rw [List.append_assoc, process_line_var, hpv, htok, hval]
  exact get_var_after_set_var st N V hNlen hVlen hcap

/-- C15 as amended, at the line `var a=b=c`: `a` is left with `b=c`. -/
theorem C15_assignment_splits_at_first_equals_witness :
    ∃ st1, process_line exactOps 0 (Interp.init [])
        ("var ".toList ++ "a".toList ++ '=' :: "b=c".toList) = .ok st1 ∧
      get_var st1.vars "a".toList = some "b=c".toList :=
  C15_assignment_splits_at_first_equals exactOps 0 (Interp.init []) "a".toList "b=c".toList
    (by decide) (by decide) (by decide) (by decide) (by decide) (by decide) (by decide)
    (by decide) (Or.inr (by decide))

/-- C16.  For a line `var N=V` whose value `V` holds no reference, processing the line a
second time right after the first leaves the variable table as the first time left it. -/
theorem C16_assignment_twice_same_table {F : Type} (ops : DoubleOps F) (fuel : Nat)
    (st st1 : Interp) (N V : List Char)
    (hNeq : '=' ∉ N) (href : occurs starts_reference V = false)
    (h : process_line ops fuel st ("var ".toList ++ N ++ '=' :: V) = .ok st1) :
    ∃ st2, process_line ops fuel st1 ("var ".toList ++ N ++ '=' :: V) = .ok st2 ∧
      st2.vars = st1.vars := by
  rw [List.append_assoc, process_line_var] at h ⊢
  have hname : scan_until '=' (N ++ '=' :: V) = N := scan_until_append '=' N V hNeq
  by_cases hN : N = []
  · have hshape : ∀ s : Interp, process_var ops fuel s (N ++ '=' :: V)
        = .ok (s.eprintf "Error: Invalid variable declaration format.\n".toList) := by
      intro s
      subst hN
      simp only [process_var, hname, if_true]
    rw [hshape] at h ⊢
    exact ⟨_, rfl, rfl⟩
  · by_cases hNlen : N.length < MAX_VAR_NAME
    · by_cases htok : scan_s V = []
      · have hshape : ∀ s : Interp, process_var ops fuel s (N ++ '=' :: V)
            = .ok (s.eprintf "Error: Invalid variable declaration format.\n".toList) := by
          intro s
          simp only [process_var, hname, hN, if_false, hNlen, not_true_eq_false,
            List.drop_left, htok, if_true]
        rw [hshape] at h ⊢
        exact ⟨_, rfl, rfl⟩
      · by_cases hlen : (scan_s V).length < MAX_VAR_VALUE
        · have hreftok : occurs starts_reference (scan_s V) = false :=
            occurs_reference_takeWhile _ _ (occurs_dropWhile _ _ _ href)
          rw [process_var_no_reference ops fuel st N V hN hNeq hNlen htok hlen hreftok] at h
          rw [process_var_no_reference ops fuel st1 N V hN hNeq hNlen htok hlen hreftok]
          obtain ⟨value, hval, hset⟩ := (Outcome.bind_eq_ok _ _ _).1 h
          rw [hval]
          exact set_var_twice st st1 N value hset
        · exfalso
          simp only [process_var, hname, hN, if_false, hNlen, not_true_eq_false,
            List.drop_left, htok, hlen, if_true] at h
          exact Outcome.noConfusion h
    · exfalso
      simp only [process_var, hname, hN, if_false, hNlen, if_true] at h
      exact Outcome.noConfusion h

/-- C16 at the line `var a=5`, processed on the state that its first processing left. -/
theorem C16_assignment_twice_same_table_witness :
    ∃ st2, process_line exactOps 0 ⟨[⟨"a".toList, "5".toList⟩], [], [], [], []⟩
        ("var ".toList ++ "a".toList ++ '=' :: "5".toList) = .ok st2 ∧
      st2.vars = [⟨"a".toList, "5".toList⟩] :=
  C16_assignment_twice_same_table exactOps 0 (Interp.init [])
    ⟨[⟨"a".toList, "5".toList⟩], [], [], [], []⟩ "a".toList "5".toList
    (by decide) (by decide) (by decide)

/-- The `input` command with the default prompt, with a prompt of its own, at the end of
the input, and on a line behind which the array of the caller holds nothing defined. -/
theorem input_line_scenarios :
    process_line exactOps 0 (Interp.init "Bob\nrest".toList) "input n".toList
      = .ok ⟨[⟨"n".toList, "Bob".toList⟩], [], "Enter value for n: ".toList, [],
          "rest".toList⟩ ∧
    process_line exactOps 0 (Interp.init "Bob\n".toList) "input n -> Name: ".toList
      = .ok ⟨[⟨"n".toList, "Bob".toList⟩], [], "Name: ".toList, [], []⟩ ∧
    process_line exactOps 0 (Interp.init []) "input n".toList
      = .ok ⟨[], [], "Enter value for n: ".toList, "Error reading input\n".toList, []⟩ ∧
    process_line_in exactOps 0 (Interp.init "Bob\n".toList) "input n".toList
        (some " -> Old: ".toList)
      = .ok ⟨[⟨"n".toList, "Bob".toList⟩], [], "Old: ".toList, [], []⟩ ∧
    process_line_in exactOps 0 (Interp.init "Bob\n".toList) "input n".toList none
      = .undefined := by
  refine ⟨by decide, by decide, by decide, by decide, by decide⟩

end Solitude
